import Mathlib

/-!
Verification of the session-recording helpers core (chunk/compress/decompress
pipeline and activity segmentation) against its natural-language specification.
The helper implementation itself is not part of the provided source excerpt
(only its test suite is), so the definitions below are modelled from the
specification, with shapes constrained by the repository's tests.
-/

set_option maxHeartbeats 1000000

namespace SessionRecording

/-- JSON-like values appearing in rrweb snapshot payload fields. -/
inductive JVal where
  | str (v : String)
  | num (v : Int)
  | obj (fields : List (String × JVal))
  | arr (elems : List JVal)

mutual

/-- Modelled from the spec: measure_size maps a payload to the byte length of
its serialized form; the JSON serializer is outside the excerpt, so the
measure is a structural byte estimate. -/
def jvalSize : JVal → Nat
  | .str v => v.length + 2
  | .num _ => 8
  | .obj fs => 2 + jfieldsSize fs
  | .arr es => 2 + jarrSize es

def jfieldsSize : List (String × JVal) → Nat
  | [] => 0
  | (k, v) :: rest => k.length + 3 + jvalSize v + jfieldsSize rest

def jarrSize : List JVal → Nat
  | [] => 0
  | v :: rest => jvalSize v + 1 + jarrSize rest

end

/-- Modelled from the spec: the timestamp field of a raw rrweb record is either
an epoch-millisecond number, an ISO-8601 string (represented here by its
parsed epoch-ms value, since the string parser is outside the excerpt), or an
unparseable string. -/
inductive TsVal where
  | num (ms : Int)
  | iso (ms : Int)
  | unparseable (s : String)

/-- An uncompressed rrweb-style snapshot record: type, timestamp, optional data
object, plus any other (ignored) properties. -/
structure PlainSnapshot where
  type : Option Int
  timestamp : Option TsVal
  data : Option (List (String × JVal))
  extra : List (String × JVal)

/-- Parse a timestamp field: epoch-ms numbers and ISO-8601 strings succeed,
anything else fails. -/
def parseTimestamp : Option TsVal → Option Int
  | some (.num ms) => some ms
  | some (.iso ms) => some ms
  | _ => none

/-- The lossy projection of one snapshot used for activity analysis. -/
structure SessionRecordingEventSummary where
  timestamp : Int
  type : Int
  data : List (String × JVal)

/-- First-match association-list lookup on string-keyed JSON fields. -/
def lookupField (k : String) : List (String × JVal) → Option JVal
  | [] => none
  | (k2, v) :: rest => if k2 = k then some v else lookupField k rest

/-- The allow-listed keys copied into an events-summary data object. -/
def EVENT_SUMMARY_DATA_INCLUSIONS : List String :=
  ["type", "source", "tag", "plugin", "href", "width", "height", "level"]

/-- Modelled from the spec: copy only allow-listed keys from data, plus a
restricted sub-copy of payload limited to allow-listed payload keys, but only
when payload is itself a keyed mapping; a payload of any other shape (such as
a raw list) is dropped. -/
def summaryData : Option (List (String × JVal)) → List (String × JVal)
  | none => []
  | some fields =>
    let base := fields.filter (fun kv =>
      !(kv.1 == "payload") && decide (kv.1 ∈ EVENT_SUMMARY_DATA_INCLUSIONS))
    match lookupField "payload" fields with
    | some (.obj pf) =>
        base ++ [("payload",
          JVal.obj (pf.filter (fun kv => decide (kv.1 ∈ EVENT_SUMMARY_DATA_INCLUSIONS))))]
    | _ => base

/-- Summarize one raw element: skip it when the type field is missing or the
timestamp neither is an epoch-ms number nor parses as an ISO-8601 string. -/
def summarizeOne (p : PlainSnapshot) : Option SessionRecordingEventSummary :=
  match p.type, parseTimestamp p.timestamp with
  | some t, some ms => some ⟨ms, t, summaryData p.data⟩
  | _, _ => none

/-- Stable insertion step: x is placed before the first element not strictly
below it, so earlier elements win ties. -/
def insertSorted (lt : α → α → Bool) (x : α) : List α → List α
  | [] => [x]
  | y :: ys => if lt y x then y :: insertSorted lt x ys else x :: y :: ys

/-- Stable insertion sort (earlier input elements precede later ones on equal
keys), mirroring the stability of Python list.sort. -/
def stableSort (lt : α → α → Bool) (l : List α) : List α :=
  l.foldr (insertSorted lt) []

/-- Modelled from the spec and the repository test
test_get_events_summary_from_snapshot_data: each raw element is summarized or
skipped (missing type, or unparseable timestamp), and the surviving summaries
are stably sorted by timestamp. The spec asserts the result is not re-sorted,
but the test's expected output lists the 1987 ISO-timestamp event first even
though it appears near the end of the input, so the function does sort; the
model follows the test. -/
def get_events_summary_from_snapshot_data (l : List PlainSnapshot) :
    List SessionRecordingEventSummary :=
  stableSort (fun a b => decide (a.timestamp < b.timestamp)) (l.filterMap summarizeOne)

/-- The rrweb incremental-snapshot sources counted as user activity. -/
def ACTIVE_RR_WEB_SOURCES : List Int := [1, 2, 3, 4, 5, 6, 7, 12]

/-- Modelled from the spec and the repository tests: an event is active iff it
is an IncrementalSnapshot (type 3) and its data.source is a number in the
fixed active-source allowlist. The test helper create_activity_data requires
source -1 to be inactive and source 1 to be active, which forces an allowlist
rather than the single-exempt-value rule the spec describes. -/
def is_active_event (e : SessionRecordingEventSummary) : Bool :=
  decide (e.type = 3) &&
    (match lookupField "source" e.data with
     | some (.num s) => decide (s ∈ ACTIVE_RR_WEB_SOURCES)
     | _ => false)

/-- A full DOM snapshot is rrweb type 2. -/
def is_full_snapshot (p : PlainSnapshot) : Bool :=
  match p.type with
  | some t => decide (t = 2)
  | none => false

/-- A segment of a recording timeline, active or inactive, for one window. -/
structure RecordingSegment where
  start_time : Int
  end_time : Int
  window_id : Option String
  is_active : Bool
deriving DecidableEq, Repr

/-- Modelled from the spec: the segmenter state machine. State is the open
active segment (start, last active timestamp) if any. An active event opens or
extends the segment; an inactive event whose gap since the last active
timestamp reaches the threshold closes the segment at that last active
timestamp; at end of input a still-open segment is closed. The spec's phrase
about the gap exceeding the threshold is read as gap-at-least-threshold, the
reading under which the repository test
test_get_active_segments_from_event_list passes. -/
def segLoop (window_id : Option String) (thresholdMs : Int) :
    Option (Int × Int) → List SessionRecordingEventSummary → List RecordingSegment
  | none, [] => []
  | some (s, last), [] => [⟨s, last, window_id, true⟩]
  | cur, e :: rest =>
    if is_active_event e then
      match cur with
      | none => segLoop window_id thresholdMs (some (e.timestamp, e.timestamp)) rest
      | some (s, _) => segLoop window_id thresholdMs (some (s, e.timestamp)) rest
    else
      match cur with
      | some (s, last) =>
        if thresholdMs ≤ e.timestamp - last then
          ⟨s, last, window_id, true⟩ :: segLoop window_id thresholdMs none rest
        else segLoop window_id thresholdMs (some (s, last)) rest
      | none => segLoop window_id thresholdMs none rest

/-- Derive the active segments of one window from its chronologically ordered
activity summaries. -/
def get_active_segments_from_event_list (events : List SessionRecordingEventSummary)
    (window_id : Option String) (activity_threshold_seconds : Int) :
    List RecordingSegment :=
  segLoop window_id (activity_threshold_seconds * 1000) none events

/-- First-match lookup of a window's interval in the start/end table. -/
def lookupWindow (w : Option String) :
    List (Option String × RecordingSegment) → Option RecordingSegment
  | [] => none
  | (w2, seg) :: rest => if w2 = w then some seg else lookupWindow w rest

/-- Modelled from the spec and the repository tests for
generate_inactive_segments_for_range: walk the window priority list keeping
the latest covered time point; each window whose interval still extends past
it (while the covered point is before range_end) contributes one inactive
filler clipped to start no earlier than one millisecond after the covered
point and to end no later than the cap derived from range_end. -/
def fillLoop (table : List (Option String × RecordingSegment)) (range_end cap : Int) :
    Int → List (Option String) → List RecordingSegment
  | _, [] => []
  | cur, wid :: rest =>
    match lookupWindow wid table with
    | none => fillLoop table range_end cap cur rest
    | some iv =>
      if iv.end_time > cur ∧ cur < range_end then
        RecordingSegment.mk (max iv.start_time (cur + 1)) (min iv.end_time cap) wid false
          :: fillLoop table range_end cap (min iv.end_time cap) rest
      else fillLoop table range_end cap cur rest

/-- Modelled from the spec: fill the inactive range with fillers attributed to
windows, trying the last active window first and then all windows in
chronological order of their interval start; unless is_last_segment is set,
fillers are capped at one millisecond before range_end. -/
def generate_inactive_segments_for_range (range_start range_end : Int)
    (last_active_window_id : Option String)
    (table : List (Option String × RecordingSegment))
    (is_last_segment : Bool) : List RecordingSegment :=
  let sortedIds :=
    (stableSort (fun a b => decide (a.2.start_time < b.2.start_time)) table).map Prod.fst
  let cap := range_end - (if is_last_segment then 0 else 1)
  fillLoop table range_end cap range_start (last_active_window_id :: sortedIds)

/-- The structural invariant of generated fillers: each one belongs to a window
of the table and spans from max(interval start, previous covered point + 1ms)
to min(interval end, cap), the next filler continuing from its end. -/
def fillerChain (table : List (Option String × RecordingSegment)) (cap : Int) :
    Int → List RecordingSegment → Prop
  | _, [] => True
  | cur, s :: rest =>
    (∃ wid iv, lookupWindow wid table = some iv ∧
      s = RecordingSegment.mk (max iv.start_time (cur + 1)) (min iv.end_time cap) wid false) ∧
    fillerChain table cap s.end_time rest

/-- 2019-01-01 00:00:00 UTC in epoch milliseconds, the base time of the
repository's segmentation tests. -/
def baseMs : Int := 1546300800000

/-- The activity summary the test helper create_activity_data builds. -/
def activityData (tsMs : Int) (active : Bool) : SessionRecordingEventSummary :=
  ⟨tsMs, 3, [("source", JVal.num (if active then 1 else -1))]⟩

/-- The event sequence of test_get_active_segments_from_event_list. -/
def segTestEvents : List SessionRecordingEventSummary :=
  [activityData (baseMs + 0) false,
   activityData (baseMs + 10000) true,
   activityData (baseMs + 10000) true,
   activityData (baseMs + 40000) true,
   activityData (baseMs + 60000) false,
   activityData (baseMs + 100000) false,
   activityData (baseMs + 110000) true,
   activityData (baseMs + 120000) false,
   activityData (baseMs + 170000) true,
   activityData (baseMs + 180000) true,
   activityData (baseMs + 200000) false]

/-- The window table of test_generate_inactive_segments_for_range. -/
def gapTestTable : List (Option String × RecordingSegment) :=
  [(some "1", ⟨baseMs - 30000, baseMs + 40000, some "2", false⟩),
   (some "2", ⟨baseMs, baseMs + 20000, some "2", false⟩),
   (some "3", ⟨baseMs + 35000, baseMs + 80000, some "2", false⟩)]

/-- The window table of
test_generate_inactive_segments_for_range_that_cannot_be_filled. -/
def gapTestTable2 : List (Option String × RecordingSegment) :=
  [(some "2", ⟨baseMs, baseMs + 20000, some "2", false⟩),
   (some "3", ⟨baseMs + 35000, baseMs + 80000, some "2", false⟩)]

/-- The window table of test_generate_inactive_segments_for_last_segment. -/
def gapTestTable3 : List (Option String × RecordingSegment) :=
  [(some "2", ⟨baseMs, baseMs + 70000, some "2", false⟩)]

/-- Modelled from the spec: the result of serializing and gzip+base64
compressing one snapshot payload. The concrete codec is outside the excerpt
(and not bit-level modellable), so the blob is an opaque invertible wrapper;
compression is deterministic and decompression exactly inverts it, as the
spec requires. -/
inductive CompressedItem where
  | blob (payload : PlainSnapshot)

/-- Byte-length estimate of one serialized payload (see jvalSize). -/
def plainSize (p : PlainSnapshot) : Nat :=
  20 + (match p.data with | none => 0 | some d => jfieldsSize d) + jfieldsSize p.extra

/-- Size of one compressed item. -/
def compressedItemSize : CompressedItem → Nat
  | .blob p => plainSize p

/-- Total size of a list of compressed items. -/
def compressedSize (items : List CompressedItem) : Nat :=
  items.foldr (fun i a => compressedItemSize i + a) 0

/-- The compressed (but unchunked) snapshot_data shape produced by
compress_replay_events: one compressed string per original event, plus
metadata. -/
structure CompressedRecord where
  compression : String
  data_items : List CompressedItem
  has_full_snapshot : Bool
  events_summary : List SessionRecordingEventSummary

/-- One chunk of a size-bounded split: sequencing metadata plus a slice of the
compressed data items. -/
structure ChunkRecord where
  chunk_id : String
  chunk_index : Nat
  chunk_count : Nat
  data : List CompressedItem
  compression : String
  has_full_snapshot : Bool

/-- The tagged-variant payload shape: an uncompressed rrweb record, a
compressed-but-unchunked record, or a chunk record (discriminated in the
source by presence of chunk_id and data_items keys). -/
inductive SnapshotData where
  | plain (p : PlainSnapshot)
  | compressed (c : CompressedRecord)
  | chunk (c : ChunkRecord)

/-- A capture event: event name, session, window, distinct id and the
snapshot payload (absent on malformed input). -/
structure PostHogEvent where
  event : String
  session_id : Option String
  window_id : Option String
  distinct_id : String
  snapshot_data : Option SnapshotData

/-- Size of a snapshot_data value. -/
def snapshotDataSize : Option SnapshotData → Nat
  | none => 0
  | some (.plain p) => plainSize p
  | some (.compressed c) => compressedSize c.data_items
  | some (.chunk ch) => compressedSize ch.data

/-- Modelled from the spec: byte_size_dict measures the serialized size of a
whole event dict; modelled as a fixed envelope overhead plus the payload
size. -/
def byte_size_dict (e : PostHogEvent) : Nat := 50 + snapshotDataSize e.snapshot_data

/-- Split a batch into replay ($snapshot) events and all other events, each
side preserving arrival order. -/
def split_replay_events (events : List PostHogEvent) :
    List PostHogEvent × List PostHogEvent :=
  (events.filter (fun e => e.event == "$snapshot"),
   events.filter (fun e => !(e.event == "$snapshot")))

/-- Decompressing one blob recovers the original payload. -/
def decompressItem : CompressedItem → SnapshotData
  | .blob p => .plain p

/-- Compress one plain payload: a single data item plus has_full_snapshot and
the pre-compression events summary. -/
def compressPlain (p : PlainSnapshot) : CompressedRecord :=
  ⟨"gzip-base64", [CompressedItem.blob p], is_full_snapshot p,
    get_events_summary_from_snapshot_data [p]⟩

/-- Compress a replay event's plain payload; payloads already in compressed or
chunked shape are recognized and passed through unchanged. -/
def compressEvent (e : PostHogEvent) : PostHogEvent :=
  match e.snapshot_data with
  | some (.plain p) => { e with snapshot_data := some (.compressed (compressPlain p)) }
  | _ => e

/-- Compress every replay event of the batch. -/
def compress_replay_events (events : List PostHogEvent) : List PostHogEvent :=
  events.map compressEvent

/-- Events are grouped by (session_id, window_id). -/
def eventKey (e : PostHogEvent) : Option String × Option String :=
  (e.session_id, e.window_id)

/-- Group a list by event key in first-occurrence order, each group keeping
arrival order (the iteration order of a Python defaultdict collector). -/
def groupByKey : List PostHogEvent → List ((Option String × Option String) × List PostHogEvent)
  | [] => []
  | e :: rest =>
    (eventKey e, e :: rest.filter (fun x => decide (eventKey x = eventKey e))) ::
      groupByKey (rest.filter (fun x => !decide (eventKey x = eventKey e)))
termination_by l => l.length
decreasing_by
  simp only [List.length_cons]
  exact Nat.lt_succ_of_le (List.length_filter_le _ _)

/-- Merge two compressed records: concatenate data items and summaries, or the
full-snapshot flags. -/
def mergeRecords (a b : CompressedRecord) : CompressedRecord :=
  ⟨a.compression, a.data_items ++ b.data_items,
    a.has_full_snapshot || b.has_full_snapshot,
    a.events_summary ++ b.events_summary⟩

/-- Merge a compressed event into the accumulated compressed event (identity
when either side is not in compressed shape; guarded by canMerge). -/
def mergeEvents (acc e : PostHogEvent) : PostHogEvent :=
  match acc.snapshot_data, e.snapshot_data with
  | some (.compressed a), some (.compressed b) =>
      { acc with snapshot_data := some (.compressed (mergeRecords a b)) }
  | _, _ => acc

/-- The accumulated event absorbs the next one iff both are compressed records
and the merged event still fits the size budget. -/
def canMerge (maxSize : Nat) (acc e : PostHogEvent) : Bool :=
  match acc.snapshot_data, e.snapshot_data with
  | some (.compressed _), some (.compressed _) =>
      decide (byte_size_dict (mergeEvents acc e) ≤ maxSize)
  | _, _ => false

/-- Greedy size-bounded merging within one (session, window) group. -/
def reduceAux (maxSize : Nat) : PostHogEvent → List PostHogEvent → List PostHogEvent
  | acc, [] => [acc]
  | acc, e :: rest =>
    if canMerge maxSize acc e then reduceAux maxSize (mergeEvents acc e) rest
    else acc :: reduceAux maxSize e rest

/-- Reduce one group (empty groups stay empty). -/
def reduceGroup (maxSize : Nat) : List PostHogEvent → List PostHogEvent
  | [] => []
  | e :: rest => reduceAux maxSize e rest

/-- Modelled from the spec: group replay events by (session_id, window_id) and
merge each group's compressed records greedily while the merged event stays
within max_size_bytes. -/
def reduce_replay_events_by_window (events : List PostHogEvent) (maxSize : Nat) :
    List PostHogEvent :=
  (groupByKey events).flatMap (fun g => reduceGroup maxSize g.2)

/-- Greedy packing of data items into consecutive slices whose serialized
chunk size stays within the budget; a single oversized item still becomes its
own slice (never dropped, never split further). -/
def packAux (maxSize : Nat) (cur : List CompressedItem) (curSize : Nat) :
    List CompressedItem → List (List CompressedItem)
  | [] => [cur]
  | i :: rest =>
    if 50 + curSize + compressedItemSize i ≤ maxSize then
      packAux maxSize (cur ++ [i]) (curSize + compressedItemSize i) rest
    else cur :: packAux maxSize [i] (compressedItemSize i) rest

/-- Split a data-item list into packing slices (an empty list yields one empty
slice). -/
def packItems (maxSize : Nat) : List CompressedItem → List (List CompressedItem)
  | [] => [[]]
  | i :: rest => packAux maxSize [i] (compressedItemSize i) rest

/-- Modelled from the spec: each split gets a newly generated unique chunk id;
the generator (a UUID in the source) is modelled by an injective
counter-to-string map. -/
def chunkIdFor (n : Nat) : String := String.mk (List.replicate n 'c')

/-- Enumerate a list with indices starting at i. -/
def enumFrom (i : Nat) : List α → List (Nat × α)
  | [] => []
  | x :: rest => (i, x) :: enumFrom (i + 1) rest

/-- Build the chunk events of one split: 0-based chunk_index, shared chunk_id
and chunk_count, each carrying one slice of the data items. -/
def mkChunkEvents (e : PostHogEvent) (c : CompressedRecord) (cid : String)
    (slices : List (List CompressedItem)) : List PostHogEvent :=
  (enumFrom 0 slices).map (fun p =>
    { e with snapshot_data := some (.chunk
        ⟨cid, p.1, slices.length, p.2, c.compression, c.has_full_snapshot⟩) })

/-- Chunk one event: compressed records within budget pass through unchanged
(so do chunk records and anything else, recognized by shape); an oversized
compressed record is split into chunk events. -/
def expandEvent (maxSize n : Nat) (e : PostHogEvent) : List PostHogEvent :=
  match e.snapshot_data with
  | some (.compressed c) =>
    if byte_size_dict e ≤ maxSize then [e]
    else mkChunkEvents e c (chunkIdFor n) (packItems maxSize c.data_items)
  | _ => [e]

/-- Chunk every event, numbering splits so chunk ids are unique. -/
def chunkAll (maxSize : Nat) : Nat → List PostHogEvent → List PostHogEvent
  | _, [] => []
  | n, e :: rest => expandEvent maxSize n e ++ chunkAll maxSize (n + 1) rest

/-- Modelled from the spec: split oversized compressed groups into
size-bounded chunks; already-chunked payloads pass through unchanged. -/
def chunk_replay_events_by_window (events : List PostHogEvent) (maxSize : Nat) :
    List PostHogEvent :=
  chunkAll maxSize 0 events

/-- The replay half of the capture pipeline: compress, reduce, chunk. -/
def flowReplay (maxSize : Nat) (events : List PostHogEvent) : List PostHogEvent :=
  chunk_replay_events_by_window
    (reduce_replay_events_by_window (compress_replay_events events) maxSize) maxSize

/-- The full capture pipeline of the repository's mock_capture_flow: split,
compress, reduce, chunk, with non-replay events appended untouched. -/
def mock_capture_flow (maxSize : Nat) (events : List PostHogEvent) : List PostHogEvent :=
  flowReplay maxSize (split_replay_events events).1 ++ (split_replay_events events).2

/-- A stored payload tagged with the window it belongs to. -/
structure SnapshotDataTaggedWithWindowId where
  window_id : Option String
  snapshot_data : SnapshotData

/-- One reconstructed logical unit of the decompressor: a compressed record,
or a chunk-id group with all its collected chunks. -/
inductive RUnit where
  | whole (w : Option String) (c : CompressedRecord)
  | group (w : Option String) (g : String) (chunks : List ChunkRecord)

/-- Does this tagged payload carry a chunk of group g? -/
def isChunkOf (g : String) (t : SnapshotDataTaggedWithWindowId) : Bool :=
  match t.snapshot_data with
  | .chunk ch => decide (ch.chunk_id = g)
  | _ => false

/-- All chunks of group g, in arrival order. -/
def collectChunks (g : String) (l : List SnapshotDataTaggedWithWindowId) :
    List ChunkRecord :=
  l.filterMap (fun t => match t.snapshot_data with
    | .chunk ch => if ch.chunk_id = g then some ch else none
    | _ => none)

/-- The input with all chunks of group g removed. -/
def removeChunks (g : String) (l : List SnapshotDataTaggedWithWindowId) :
    List SnapshotDataTaggedWithWindowId :=
  l.filter (fun t => !isChunkOf g t)

/-- Collect the reconstruction units in first-occurrence order: each
compressed record is one unit, each chunk id is one unit gathering all its
chunks (the iteration order of the defaultdict chunk collector); plain
payloads are handled separately as pass-through. -/
def collectUnits : List SnapshotDataTaggedWithWindowId → List RUnit
  | [] => []
  | t :: rest =>
    match t.snapshot_data with
    | .plain _ => collectUnits rest
    | .compressed c => .whole t.window_id c :: collectUnits rest
    | .chunk ch =>
      .group t.window_id ch.chunk_id (ch :: collectChunks ch.chunk_id rest) ::
        collectUnits (removeChunks ch.chunk_id rest)
termination_by l => l.length
decreasing_by
  all_goals simp only [List.length_cons]
  all_goals first
  | exact Nat.lt_succ_of_le (List.length_filter_le _ _)
  | exact Nat.lt_succ_of_le (Nat.le_refl _)

/-- Deduplicate a chunk-group by chunk_index, keeping one chunk per index. -/
def dedupByIndex : List ChunkRecord → List ChunkRecord
  | [] => []
  | c :: rest =>
      c :: dedupByIndex (rest.filter (fun c2 => !decide (c2.chunk_index = c.chunk_index)))
termination_by l => l.length
decreasing_by
  simp only [List.length_cons]
  exact Nat.lt_succ_of_le (List.length_filter_le _ _)

/-- Modelled from the spec: deduplicate by chunk_index; if the distinct index
set does not cover 0..chunk_count-1 the whole group is undecodable (none);
otherwise order chunks by index (extras beyond chunk_count are ignorable
noise) and concatenate, decompressing every item. -/
def decodeGroup (chunks : List ChunkRecord) : Option (List SnapshotData) :=
  match chunks with
  | [] => none
  | c0 :: _ =>
    let deduped := dedupByIndex chunks
    if (List.range c0.chunk_count).all
        (fun i => deduped.any (fun c => decide (c.chunk_index = i))) then
      some (((stableSort (fun a b => decide (a.chunk_index < b.chunk_index)) deduped).filter
          (fun c => decide (c.chunk_index < c0.chunk_count))).flatMap
        (fun ch => ch.data.map decompressItem))
    else none

/-- Decode one unit into its per-window payload contribution; an undecodable
chunk group contributes nothing at all (dropped silently). -/
def decodeUnit : RUnit → List (Option String × List SnapshotData)
  | .whole w c => [(w, c.data_items.map decompressItem)]
  | .group w _ chunks =>
    match decodeGroup chunks with
    | some payloads => [(w, payloads)]
    | none => []

/-- A paginated slice plus the has-more flag. -/
structure PaginatedList (α : Type) where
  has_next : Bool
  paginated_list : List α

/-- Modelled from the spec: no limit returns everything from offset with
has_next false; with a limit, has_next reflects whether elements exist beyond
offset + limit. -/
def paginate_list (l : List α) (limit : Option Nat) (offset : Nat) : PaginatedList α :=
  match limit with
  | none => ⟨false, l.drop offset⟩
  | some n => ⟨decide (offset + n < l.length), (l.drop offset).take n⟩

/-- Append a window's payloads into the accumulated per-window map (defaultdict
append semantics; first-insertion key order). -/
def addEntry : List (Option String × List SnapshotData) → Option String →
    List SnapshotData → List (Option String × List SnapshotData)
  | [], w, ps => [(w, ps)]
  | (w2, qs) :: rest, w, ps =>
    if w2 = w then (w2, qs ++ ps) :: rest else (w2, qs) :: addEntry rest w ps

/-- Add a contribution, creating no key for an empty payload list (items are
appended one by one in the source, so no item means no key access). -/
def addToWindow (m : List (Option String × List SnapshotData)) (w : Option String)
    (ps : List SnapshotData) : List (Option String × List SnapshotData) :=
  if ps.isEmpty then m else addEntry m w ps

/-- Fold all contributions into the per-window map. -/
def buildMap (contribs : List (Option String × List SnapshotData)) :
    List (Option String × List SnapshotData) :=
  contribs.foldl (fun m c => addToWindow m c.1 c.2) []

/-- The payload list a per-window map associates with window w (concatenating
every entry of that window; the map in fact keeps keys unique). -/
def windowData (m : List (Option String × List SnapshotData)) (w : Option String) :
    List SnapshotData :=
  match m with
  | [] => []
  | (w2, ps) :: rest => if w2 = w then ps ++ windowData rest w else windowData rest w

/-- The decompressor's result: the has-more flag and the per-window payloads. -/
structure DecompressedRecordingData where
  has_next : Bool
  snapshot_data_by_window_id : List (Option String × List SnapshotData)

/-- Pass-through contributions of already-plain payloads, one per event. -/
def plainContribs (events : List SnapshotDataTaggedWithWindowId) :
    List (Option String × List SnapshotData) :=
  events.filterMap (fun t => match t.snapshot_data with
    | .plain p => some (t.window_id, [SnapshotData.plain p])
    | _ => none)

/-- Modelled from the spec: partition payloads per window, pass plain payloads
through, group chunk payloads by chunk id, deduplicate and verify each group,
decompress complete groups (incomplete ones are dropped silently), paginate
over the reconstructed units, and return the per-window map plus has_next; an
empty input yields has_next false and an empty map. -/
def decompress_chunked_snapshot_data (events : List SnapshotDataTaggedWithWindowId)
    (limit : Option Nat) (offset : Nat) : DecompressedRecordingData :=
  if events.isEmpty then ⟨false, []⟩
  else
    let page := paginate_list (collectUnits events) limit offset
    ⟨page.has_next, buildMap (plainContribs events ++ page.paginated_list.flatMap decodeUnit)⟩

/-- Tag each pipeline output's payload with its window id, as the playback
boundary does. -/
def tagWithWindow (events : List PostHogEvent) : List SnapshotDataTaggedWithWindowId :=
  events.filterMap (fun e => e.snapshot_data.map (fun sd => ⟨e.window_id, sd⟩))

/-- A raw capture event: a $snapshot event holding an uncompressed payload. -/
def isRawSnapshotEvent (e : PostHogEvent) : Bool :=
  e.event == "$snapshot" &&
    (match e.snapshot_data with | some (.plain _) => true | _ => false)

/-- No two events share a window while disagreeing on the session (the
no-grouping-collisions hypothesis of the round-trip property). -/
def noWindowCollisions (events : List PostHogEvent) : Bool :=
  events.all (fun a => events.all (fun b =>
    !decide (a.window_id = b.window_id) || decide (a.session_id = b.session_id)))

/-- The original plain payload of a raw event, as a SnapshotData value. -/
def rawPayload (e : PostHogEvent) : Option SnapshotData :=
  match e.snapshot_data with
  | some (.plain p) => some (.plain p)
  | _ => none

/-- The event's single compressed item fits the size budget (the claim's
max_size_bytes lower bound). -/
def rawItemFits (maxSize : Nat) (e : PostHogEvent) : Bool :=
  match e.snapshot_data with
  | some (.plain p) => decide (plainSize p ≤ maxSize)
  | _ => true

/-- A tagged payload that is not a plain pass-through. -/
def notPlainTagged (t : SnapshotDataTaggedWithWindowId) : Bool :=
  match t.snapshot_data with
  | .plain _ => false
  | _ => true

/-- Remove every chunk event that duplicates the (chunk_id, chunk_index) of an
earlier chunk event (the deduplicated input collection of claim C4). -/
def dedupTaggedGroup : List SnapshotDataTaggedWithWindowId →
    List SnapshotDataTaggedWithWindowId
  | [] => []
  | t :: rest =>
    match t.snapshot_data with
    | .chunk ch =>
      t :: dedupTaggedGroup (rest.filter (fun t2 =>
        match t2.snapshot_data with
        | .chunk ch2 => !(decide (ch2.chunk_id = ch.chunk_id) &&
            decide (ch2.chunk_index = ch.chunk_index))
        | _ => true))
    | _ => t :: dedupTaggedGroup rest
termination_by l => l.length
decreasing_by
  all_goals simp only [List.length_cons]
  all_goals first
  | exact Nat.lt_succ_of_le (List.length_filter_le _ _)
  | exact Nat.lt_succ_of_le (Nat.le_refl _)

/-- Full index coverage 0..chunk_count-1 of a chunk-group multiset (the count
read from the first chunk; an empty group covers nothing). -/
def fullCoverage (cs : List ChunkRecord) : Bool :=
  match cs with
  | [] => false
  | c0 :: _ =>
    (List.range c0.chunk_count).all (fun i => cs.any (fun c => decide (c.chunk_index = i)))

/-- The input contains chunks of group g, and their distinct chunk_index set
(equivalently, the index set after deduplication) does not cover
0..chunk_count-1. -/
def groupIncomplete (g : String) (events : List SnapshotDataTaggedWithWindowId) : Bool :=
  match collectChunks g events with
  | [] => false
  | _ :: _ => !fullCoverage (collectChunks g events)

/-- Does the event carry an uncompressed payload? -/
def isPlainShape (e : PostHogEvent) : Bool :=
  match e.snapshot_data with
  | some (.plain _) => true
  | _ => false

/-- Does the event carry a compressed (unchunked) record? -/
def isCompressedShape (e : PostHogEvent) : Bool :=
  match e.snapshot_data with
  | some (.compressed _) => true
  | _ => false

/-- The compressed data items an event carries (empty unless compressed). -/
def eventItems (e : PostHogEvent) : List CompressedItem :=
  match e.snapshot_data with
  | some (.compressed c) => c.data_items
  | _ => []

/-- The per-key blocks of the capture pipeline output: each (session, window)
group is reduced and then chunked, with the chunk-id counter threaded through
in list order. -/
def chunkBlocks (maxSize : Nat) :
    Nat → List ((Option String × Option String) × List PostHogEvent) →
    List ((Option String × Option String) × List PostHogEvent)
  | _, [] => []
  | n, (k, g) :: rest =>
    (k, chunkAll maxSize n (reduceGroup maxSize g)) ::
      chunkBlocks maxSize (n + (reduceGroup maxSize g).length) rest

/-- Tag a chunk record with a window, forming one stored payload. -/
def tagChunk (w : Option String) (c : ChunkRecord) : SnapshotDataTaggedWithWindowId :=
  ⟨w, .chunk c⟩

/-- A small payload used by concrete witnesses. -/
def demoPlain : PlainSnapshot := ⟨some 2, some (.num 5), none, []⟩

/-- Two compressed records tagged with different windows (two reconstruction
units, no plain pass-through). -/
def c8Demo : List SnapshotDataTaggedWithWindowId :=
  [⟨some "1", .compressed ⟨"gzip-base64", [CompressedItem.blob demoPlain], false, []⟩⟩,
   ⟨none, .compressed ⟨"gzip-base64", [CompressedItem.blob demoPlain], true, []⟩⟩]

/-- A chunk of the two-chunk witness group g. -/
def c4Chunk (i : Nat) : ChunkRecord :=
  ⟨"g", i, 2, [CompressedItem.blob demoPlain], "gzip-base64", false⟩

/-- A chunk-group multiset with a duplicated index but full coverage. -/
def c4Multiset : List ChunkRecord := [c4Chunk 0, c4Chunk 1, c4Chunk 0]

/-- An input holding an incomplete chunk group (index 1 of 2 only) next to a
decodable compressed record. -/
def c3Demo : List SnapshotDataTaggedWithWindowId :=
  [⟨some "w", .chunk ⟨"bad", 1, 2, [], "gzip-base64", false⟩⟩,
   ⟨some "w", .compressed ⟨"gzip-base64", [CompressedItem.blob demoPlain], false, []⟩⟩]

/-- Two summarizable snapshots given out of timestamp order. -/
def c9In : List PlainSnapshot :=
  [⟨some 3, some (.num 2), none, []⟩, ⟨some 3, some (.num 1), none, []⟩]

/-- A snapshot whose timestamp is an unparseable string. -/
def c9Bad : PlainSnapshot :=
  ⟨some 1, some (.unparseable "about a hundred years ago"), none, []⟩

/-- A well-formed snapshot used around the unparseable one. -/
def c9Ok (ts : Int) : PlainSnapshot := ⟨some 3, some (.num ts), none, []⟩

/-- The chunk records carried by the split of one oversized compressed record
(the payload view of mkChunkEvents). -/
def chunkRecordsOf (c : CompressedRecord) (cid : String)
    (slices : List (List CompressedItem)) : List ChunkRecord :=
  (enumFrom 0 slices).map (fun p =>
    ⟨cid, p.1, slices.length, p.2, c.compression, c.has_full_snapshot⟩)

/-- Two raw snapshot events over distinct windows of one session, used by the
round-trip witness. -/
def c1In : List PostHogEvent :=
  [⟨"$snapshot", some "s", some "A", "d", some (.plain demoPlain)⟩,
   ⟨"$snapshot", some "s", none, "d", some (.plain ⟨some 3, some (.num 7), none, []⟩)⟩]

section Theorems

/-- C5: on the event sequence of test_get_active_segments_from_event_list
(inactive@0, active@10, active@10, active@40, inactive@60, inactive@100,
active@110, inactive@120, active@170, active@180, inactive@200; threshold 60s)
the segmenter returns exactly the two active segments [+10s,+40s] and
[+110s,+180s]: the closing inactive events at +100s and +200s set the segment
ends to the last active timestamps +40s and +180s, and the short gap around
the inactive event at +120s does not split the second segment. -/
theorem c5_active_segments_concrete :
    get_active_segments_from_event_list segTestEvents (some "1") 60 =
      [⟨baseMs + 10000, baseMs + 40000, some "1", true⟩,
       ⟨baseMs + 110000, baseMs + 180000, some "1", true⟩] := by
  decide

/-- C6 counterexample: on the inputs of
test_generate_inactive_segments_for_range the first filler starts at
range_start + 1ms although no window interval ends at range_start, and the
second filler ends at +40s, which is neither one millisecond before any
window interval's start nor range_end, refuting the claimed boundary rule
(is_last_segment is false here). -/
theorem c6_counterexample :
    generate_inactive_segments_for_range baseMs (baseMs + 60000) (some "2") gapTestTable false =
      [⟨baseMs + 1, baseMs + 20000, some "2", false⟩,
       ⟨baseMs + 20001, baseMs + 40000, some "1", false⟩,
       ⟨baseMs + 40001, baseMs + 59999, some "3", false⟩] ∧
    gapTestTable.all (fun kv => decide (kv.2.end_time ≠ baseMs)) = true ∧
    gapTestTable.all (fun kv => decide (kv.2.start_time - 1 ≠ baseMs + 40000)) = true ∧
    (baseMs + 40000 : Int) ≠ baseMs + 60000 := by
  refine ⟨by decide, by decide, by decide, by decide⟩

/-- Auxiliary induction for the filler invariant: whatever the covered point,
the fillers produced by fillLoop satisfy fillerChain from that point. -/
theorem fillLoop_chain (table : List (Option String × RecordingSegment))
    (range_end cap : Int) :
    ∀ (ids : List (Option String)) (cur : Int),
      fillerChain table cap cur (fillLoop table range_end cap cur ids) := by
  intro ids
  induction ids with
  | nil => intro cur; simp [fillLoop, fillerChain]
  | cons wid rest ih =>
    intro cur
    unfold fillLoop
    cases h : lookupWindow wid table with
    | none => exact ih cur
    | some iv =>
      by_cases hc : iv.end_time > cur ∧ cur < range_end
      · simp only [hc, if_true]
        refine ⟨⟨wid, iv, h, rfl⟩, ?_⟩
        exact ih (min iv.end_time cap)
      · simp only [hc, if_false]
        exact ih cur

/-- Shared helper: the output of generate_inactive_segments_for_range
satisfies the filler invariant from range_start. -/
theorem generate_inactive_chain (range_start range_end : Int)
    (last_active_window_id : Option String)
    (table : List (Option String × RecordingSegment)) (is_last_segment : Bool) :
    fillerChain table (range_end - (if is_last_segment then 0 else 1)) range_start
      (generate_inactive_segments_for_range range_start range_end
        last_active_window_id table is_last_segment) := by
  unfold generate_inactive_segments_for_range
  exact fillLoop_chain table range_end _ _ range_start

/-- C6 amended: every filler produced by generate_inactive_segments_for_range
belongs to a window of the table and spans from max(that window's interval
start, one millisecond after the previously covered point — initially
range_start) to min(that window's interval end, range_end), where the
range_end cap is lowered by one millisecond unless is_last_segment is true;
each filler's end becomes the covered point for the next one. -/
theorem c6_filler_boundaries (range_start range_end : Int)
    (last_active_window_id : Option String)
    (table : List (Option String × RecordingSegment)) (is_last_segment : Bool) :
    fillerChain table (range_end - (if is_last_segment then 0 else 1)) range_start
      (generate_inactive_segments_for_range range_start range_end
        last_active_window_id table is_last_segment) :=
  generate_inactive_chain range_start range_end last_active_window_id table is_last_segment

/-- C7 counterexample: on the inputs of
test_generate_inactive_segments_for_range_that_cannot_be_filled, the time
point +25s lies in the requested range [0s,60s], is overlapped by no window's
interval, and is covered by no produced filler segment: the uncovered gap
(20s,35s) is left without any segment. -/
theorem c7_counterexample :
    generate_inactive_segments_for_range baseMs (baseMs + 60000) (some "2") gapTestTable2 false =
      [⟨baseMs + 1, baseMs + 20000, some "2", false⟩,
       ⟨baseMs + 35000, baseMs + 59999, some "3", false⟩] ∧
    (baseMs ≤ baseMs + 25000 ∧ baseMs + 25000 ≤ baseMs + 60000) ∧
    gapTestTable2.all (fun kv =>
      !(decide (kv.2.start_time ≤ baseMs + 25000) && decide (baseMs + 25000 ≤ kv.2.end_time))) = true ∧
    (generate_inactive_segments_for_range baseMs (baseMs + 60000) (some "2") gapTestTable2 false).all
      (fun s =>
        !(decide (s.start_time ≤ baseMs + 25000) && decide (baseMs + 25000 ≤ s.end_time))) = true := by
  refine ⟨by decide, by decide, by decide, by decide⟩

/-- Fillers listed by fillerChain stay inside their window's interval. -/
theorem fillerChain_mem_subset (table : List (Option String × RecordingSegment))
    (cap : Int) :
    ∀ (l : List RecordingSegment) (cur : Int), fillerChain table cap cur l →
      ∀ s ∈ l, ∃ wid iv, lookupWindow wid table = some iv ∧
        iv.start_time ≤ s.start_time ∧ s.end_time ≤ iv.end_time := by
  intro l
  induction l with
  | nil => intro cur _ s hs; cases hs
  | cons a rest ih =>
    intro cur hchain s hs
    obtain ⟨⟨wid, iv, hl, ha⟩, hrest⟩ := hchain
    rcases List.mem_cons.mp hs with hs | hs
    · subst hs
      refine ⟨wid, iv, hl, ?_, ?_⟩
      · rw [ha]; exact le_max_left _ _
      · rw [ha]; exact min_le_left _ _
    · exact ih a.end_time hrest s hs

/-- C7 amended: every inactive filler produced by
generate_inactive_segments_for_range lies within some window's active
interval from the table; consequently a sub-range of [range_start, range_end]
overlapped by no window's interval is covered by no filler segment (such a
gap is left unfilled rather than spanned by a filler). -/
theorem c7_fillers_within_window_intervals (range_start range_end : Int)
    (last_active_window_id : Option String)
    (table : List (Option String × RecordingSegment)) (is_last_segment : Bool)
    (s : RecordingSegment)
    (hs : s ∈ generate_inactive_segments_for_range range_start range_end
      last_active_window_id table is_last_segment) :
    ∃ wid iv, lookupWindow wid table = some iv ∧
      iv.start_time ≤ s.start_time ∧ s.end_time ≤ iv.end_time := by
  exact fillerChain_mem_subset table _ _ range_start
    (generate_inactive_chain range_start range_end last_active_window_id table is_last_segment)
    s hs

/-- Witness for c7_fillers_within_window_intervals at the concrete input of
the cannot-be-filled test: the first produced filler lies inside window 2's
interval. -/
theorem c7_fillers_witness :
    ∃ wid iv, lookupWindow wid gapTestTable2 = some iv ∧
      iv.start_time ≤ baseMs + 1 ∧ baseMs + 20000 ≤ iv.end_time := by
  exact c7_fillers_within_window_intervals baseMs (baseMs + 60000) (some "2") gapTestTable2
    false ⟨baseMs + 1, baseMs + 20000, some "2", false⟩ (by decide)

/-- Membership in an insertion step is membership in the inserted element or
the original list. -/
theorem mem_insertSorted (lt : α → α → Bool) (x : α) :
    ∀ (l : List α) (z : α), z ∈ insertSorted lt x l ↔ z = x ∨ z ∈ l := by
  intro l
  induction l with
  | nil => intro z; simp [insertSorted]
  | cons y ys ih =>
    intro z
    unfold insertSorted
    by_cases h : lt y x
    · simp only [h, if_true, List.mem_cons, ih]
      tauto
    · simp only [Bool.not_eq_true] at h
      simp only [h, Bool.false_eq_true, if_false, List.mem_cons]

/-- Inserting into a key-sorted list keeps it key-sorted. -/
theorem pairwise_insertSorted (key : α → Int) (x : α) :
    ∀ l, List.Pairwise (fun a b => key a ≤ key b) l →
      List.Pairwise (fun a b => key a ≤ key b)
        (insertSorted (fun a b => decide (key a < key b)) x l) := by
  intro l
  induction l with
  | nil => intro _; simp [insertSorted]
  | cons y ys ih =>
    intro hp
    rw [List.pairwise_cons] at hp
    obtain ⟨hy, hys⟩ := hp
    unfold insertSorted
    by_cases h : key y < key x
    · rw [if_pos (by simpa using h)]
      rw [List.pairwise_cons]
      refine ⟨?_, ih hys⟩
      intro z hz
      rcases (mem_insertSorted _ x ys z).mp hz with rfl | hz
      · exact le_of_lt h
      · exact hy z hz
    · rw [if_neg (by simpa using h)]
      rw [List.pairwise_cons]
      refine ⟨?_, List.pairwise_cons.mpr ⟨hy, hys⟩⟩
      intro z hz
      rcases List.mem_cons.mp hz with rfl | hz
      · exact le_of_not_lt h
      · exact le_trans (le_of_not_lt h) (hy z hz)

/-- The stable insertion sort produces a key-sorted list. -/
theorem pairwise_stableSort (key : α → Int) (l : List α) :
    List.Pairwise (fun a b => key a ≤ key b)
      (stableSort (fun a b => decide (key a < key b)) l) := by
  induction l with
  | nil => simp [stableSort]
  | cons x xs ih =>
    unfold stableSort
    simp only [List.foldr_cons]
    exact pairwise_insertSorted key x _ ih

/-- C9 counterexample: two summarizable snapshots with timestamps 2 then 1
survive in sorted order [1, 2], not in their original input order [2, 1], so
get_events_summary_from_snapshot_data does re-sort its result by timestamp. -/
theorem c9_counterexample :
    (get_events_summary_from_snapshot_data c9In).map (fun s => s.timestamp) = [1, 2] ∧
    (c9In.filterMap summarizeOne).map (fun s => s.timestamp) = [2, 1] ∧
    ([1, 2] : List Int) ≠ [2, 1] :=
  ⟨rfl, rfl, by decide⟩

/-- C9 amended: get_events_summary_from_snapshot_data returns the surviving
summaries stably sorted by timestamp (the output is pairwise
timestamp-ordered), and an element with an unparseable timestamp is skipped
without affecting the summaries of the rest of the batch. -/
theorem c9_summaries_sorted_and_skip_robust :
    (∀ l : List PlainSnapshot,
      List.Pairwise (fun a b => a.timestamp ≤ b.timestamp)
        (get_events_summary_from_snapshot_data l)) ∧
    (∀ (xs ys : List PlainSnapshot) (bad : PlainSnapshot),
      parseTimestamp bad.timestamp = none →
      get_events_summary_from_snapshot_data (xs ++ bad :: ys) =
        get_events_summary_from_snapshot_data (xs ++ ys)) := by
  constructor
  · intro l
    exact pairwise_stableSort (fun s : SessionRecordingEventSummary => s.timestamp) _
  · intro xs ys bad h
    have hb : summarizeOne bad = none := by
      unfold summarizeOne
      rw [h]
      cases bad.type <;> rfl
    unfold get_events_summary_from_snapshot_data
    rw [List.filterMap_append, List.filterMap_append, List.filterMap_cons, hb]

/-- Witness for c9_summaries_sorted_and_skip_robust: a concrete unparseable
timestamp is skipped while its neighbours are summarized. -/
theorem c9_skip_witness :
    get_events_summary_from_snapshot_data ([c9Ok 1] ++ c9Bad :: [c9Ok 2]) =
      get_events_summary_from_snapshot_data ([c9Ok 1] ++ [c9Ok 2]) :=
  c9_summaries_sorted_and_skip_robust.2 [c9Ok 1] [c9Ok 2] c9Bad rfl

/-- C10 counterexample: sources 0 and -1 are both present (and distinct), yet
both events are inactive, refuting the rule that only a single
inactivity-exempt source value is treated as not active. -/
theorem c10_counterexample :
    is_active_event ⟨0, 3, [("source", JVal.num 0)]⟩ = false ∧
    is_active_event ⟨0, 3, [("source", JVal.num (-1))]⟩ = false ∧
    (0 : Int) ≠ -1 :=
  ⟨rfl, rfl, by decide⟩

/-- C10 amended: a summary event is active iff its type is 3 and its
data.source is a numeric value belonging to the fixed active-source allowlist
[1, 2, 3, 4, 5, 6, 7, 12]; events lacking data.source (or with a non-numeric
source) are inactive. -/
theorem c10_is_active_iff (e : SessionRecordingEventSummary) :
    is_active_event e = true ↔
      (e.type = 3 ∧ ∃ s, lookupField "source" e.data = some (JVal.num s) ∧
        s ∈ ACTIVE_RR_WEB_SOURCES) := by
  unfold is_active_event
  rw [Bool.and_eq_true, decide_eq_true_eq]
  constructor
  · rintro ⟨h3, hm⟩
    refine ⟨h3, ?_⟩
    cases hl : lookupField "source" e.data with
    | none => rw [hl] at hm; exact absurd hm (by simp)
    | some v =>
      cases v with
      | num s =>
        rw [hl] at hm
        simp only [decide_eq_true_eq] at hm
        exact ⟨s, rfl, hm⟩
      | str v => rw [hl] at hm; exact absurd hm (by simp)
      | obj f => rw [hl] at hm; exact absurd hm (by simp)
      | arr a => rw [hl] at hm; exact absurd hm (by simp)
  · rintro ⟨h3, s, hl, hmem⟩
    refine ⟨h3, ?_⟩
    rw [hl]
    simpa using hmem

/-- An input with no plain payloads passes nothing through. -/
theorem plainContribs_nil_of_notPlain :
    ∀ events : List SnapshotDataTaggedWithWindowId,
      events.all notPlainTagged = true → plainContribs events = [] := by
  intro events
  induction events with
  | nil => intro _; rfl
  | cons t rest ih =>
    intro h
    rw [List.all_cons, Bool.and_eq_true] at h
    have h1 := h.1
    unfold plainContribs
    cases ht : t.snapshot_data with
    | plain p =>
      exfalso
      unfold notPlainTagged at h1
      rw [ht] at h1
      simp at h1
    | compressed c =>
      rw [List.filterMap_cons_none]
      · exact ih h.2
      · rw [ht]
    | chunk c =>
      rw [List.filterMap_cons_none]
      · exact ih h.2
      · rw [ht]

/-- C8: pagination boundaries of decompress_chunked_snapshot_data. An empty
input yields has_next false and an empty map for any limit and offset; for an
input of non-plain payloads an offset at or beyond the number of
reconstructed units yields an empty result with has_next false; supplying no
limit returns exactly what a limit covering all units returns, with has_next
false; and a limit ending exactly at the number of units yields has_next
false. -/
theorem c8_pagination_boundaries :
    (∀ (limit : Option Nat) (offset : Nat),
      decompress_chunked_snapshot_data [] limit offset =
        DecompressedRecordingData.mk false []) ∧
    (∀ (events : List SnapshotDataTaggedWithWindowId) (limit : Option Nat) (offset : Nat),
      events.all notPlainTagged = true →
      (collectUnits events).length ≤ offset →
      decompress_chunked_snapshot_data events limit offset =
        DecompressedRecordingData.mk false []) ∧
    (∀ events, decompress_chunked_snapshot_data events none 0 =
      decompress_chunked_snapshot_data events (some ((collectUnits events).length)) 0) ∧
    (∀ events (n offset : Nat), offset + n = (collectUnits events).length →
      (decompress_chunked_snapshot_data events (some n) offset).has_next = false) := by
  refine ⟨?_, ?_, ?_, ?_⟩
  · intro limit offset
    rfl
  · intro events limit offset hnp hoff
    unfold decompress_chunked_snapshot_data
    by_cases he : events.isEmpty
    · rw [if_pos he]
    · rw [if_neg he]
      have hdrop : (collectUnits events).drop offset = [] := List.drop_eq_nil_of_le hoff
      rw [plainContribs_nil_of_notPlain events hnp]
      cases limit with
      | none => simp [paginate_list, hdrop, buildMap]
      | some n =>
        have hlt : ¬ (offset + n < (collectUnits events).length) := by omega
        simp [paginate_list, hdrop, hlt, buildMap]
  · intro events
    unfold decompress_chunked_snapshot_data
    by_cases he : events.isEmpty
    · rw [if_pos he, if_pos he]
    · rw [if_neg he, if_neg he]
      simp [paginate_list, List.take_length]
  · intro events n offset h
    unfold decompress_chunked_snapshot_data
    by_cases he : events.isEmpty
    · rw [if_pos he]
    · rw [if_neg he]
      have hlt : ¬ (offset + n < (collectUnits events).length) := by omega
      simp [paginate_list, hlt]

/-- Witness for c8_pagination_boundaries: a concrete two-unit input with an
offset beyond its length, and a limit covering it exactly. -/
theorem c8_witness :
    decompress_chunked_snapshot_data c8Demo (some 1) 5 =
      DecompressedRecordingData.mk false [] ∧
    (decompress_chunked_snapshot_data c8Demo (some 2) 0).has_next = false := by
  constructor
  · exact c8_pagination_boundaries.2.1 c8Demo (some 1) 5 rfl
      (by simp [collectUnits, c8Demo, collectChunks, removeChunks, isChunkOf, demoPlain])
  · exact c8_pagination_boundaries.2.2.2 c8Demo 2 0
      (by simp [collectUnits, c8Demo, collectChunks, removeChunks, isChunkOf, demoPlain])

/-- Deduplication only keeps elements of the original group. -/
theorem mem_dedupByIndex (l : List ChunkRecord) : ∀ c ∈ dedupByIndex l, c ∈ l := by
  induction l using dedupByIndex.induct with
  | case1 => intro c hc; simp [dedupByIndex] at hc
  | case2 c rest ih =>
    intro x hx
    simp only [dedupByIndex] at hx
    rcases List.mem_cons.mp hx with rfl | hx
    · exact List.mem_cons_self _ _
    · exact List.mem_cons_of_mem _ (List.mem_of_mem_filter (ih x hx))

/-- Filtering a foreign index out of an already-filtered deduplication is a
no-op. -/
theorem dedup_filter_self (c : ChunkRecord) (rest : List ChunkRecord) :
    (dedupByIndex (rest.filter (fun c2 => !decide (c2.chunk_index = c.chunk_index)))).filter
        (fun c2 => !decide (c2.chunk_index = c.chunk_index)) =
      dedupByIndex (rest.filter (fun c2 => !decide (c2.chunk_index = c.chunk_index))) := by
  apply List.filter_eq_self.mpr
  intro a ha
  have h2 := List.mem_filter.mp (mem_dedupByIndex _ a ha)
  simpa using h2.2

/-- Deduplication by index is idempotent. -/
theorem dedupByIndex_idem (l : List ChunkRecord) :
    dedupByIndex (dedupByIndex l) = dedupByIndex l := by
  induction l using dedupByIndex.induct with
  | case1 => simp [dedupByIndex]
  | case2 c rest ih =>
    simp only [dedupByIndex]
    rw [dedup_filter_self, ih]

/-- Collecting a group's chunks from its own tagged multiset returns the
multiset. -/
theorem collectChunks_map_group (w : Option String) (g : String) :
    ∀ cs : List ChunkRecord, cs.all (fun c => decide (c.chunk_id = g)) = true →
      collectChunks g (cs.map (tagChunk w)) = cs := by
  intro cs
  induction cs with
  | nil => intro _; rfl
  | cons c rest ih =>
    intro h
    rw [List.all_cons, Bool.and_eq_true] at h
    have hid : c.chunk_id = g := by simpa using h.1
    unfold collectChunks
    rw [List.map_cons, List.filterMap_cons_some]
    · exact congrArg (List.cons c) (ih h.2)
    · simp [tagChunk, hid]

/-- Removing a group's chunks from its own tagged multiset leaves nothing. -/
theorem removeChunks_map_group (w : Option String) (g : String) :
    ∀ cs : List ChunkRecord, cs.all (fun c => decide (c.chunk_id = g)) = true →
      removeChunks g (cs.map (tagChunk w)) = [] := by
  intro cs
  induction cs with
  | nil => intro _; rfl
  | cons c rest ih =>
    intro h
    rw [List.all_cons, Bool.and_eq_true] at h
    have hid : c.chunk_id = g := by simpa using h.1
    unfold removeChunks
    rw [List.map_cons, List.filter_cons_of_neg]
    · exact ih h.2
    · simp [tagChunk, isChunkOf, hid]

/-- A tagged single-group input collects into exactly one group unit holding
the whole multiset. -/
theorem collectUnits_single_group (w : Option String) (g : String)
    (c : ChunkRecord) (rest : List ChunkRecord)
    (h : (c :: rest).all (fun x => decide (x.chunk_id = g)) = true) :
    collectUnits ((c :: rest).map (tagChunk w)) = [RUnit.group w g (c :: rest)] := by
  rw [List.all_cons, Bool.and_eq_true] at h
  have hid : c.chunk_id = g := by simpa using h.1
  rw [List.map_cons]
  simp only [collectUnits, tagChunk]
  rw [hid, collectChunks_map_group w g rest h.2, removeChunks_map_group w g rest h.2]
  simp [collectUnits]

/-- Chunk groups pass through no plain payloads. -/
theorem plainContribs_map_group (w : Option String) (cs : List ChunkRecord) :
    plainContribs (cs.map (tagChunk w)) = [] := by
  induction cs with
  | nil => rfl
  | cons c rest ih =>
    unfold plainContribs at ih ⊢
    rw [List.map_cons, List.filterMap_cons_none]
    · exact ih
    · rfl

/-- Decoding a chunk-group unit is invariant under deduplicating its chunk
multiset first. -/
theorem decodeUnit_dedup (w : Option String) (gid : String)
    (c : ChunkRecord) (rest : List ChunkRecord) :
    decodeUnit (RUnit.group w gid (dedupByIndex (c :: rest))) =
      decodeUnit (RUnit.group w gid (c :: rest)) := by
  unfold decodeUnit
  simp only [dedupByIndex]
  unfold decodeGroup
  simp only [dedupByIndex]
  rw [dedup_filter_self, dedupByIndex_idem]

/-- Pagination over a single unit yields the same decoded contribution for
interchangeable units. -/
theorem paginate_singleton_flatMap {β : Type} (f : RUnit → List β) (x y : RUnit)
    (h : f x = f y) (limit : Option Nat) (offset : Nat) :
    (paginate_list [x] limit offset).paginated_list.flatMap f =
      (paginate_list [y] limit offset).paginated_list.flatMap f := by
  cases limit with
  | none =>
    cases offset with
    | zero => simp [paginate_list, h]
    | succ k => simp [paginate_list]
  | some n =>
    cases offset with
    | zero =>
      cases n with
      | zero => simp [paginate_list]
      | succ m => simp [paginate_list, h]
    | succ k => simp [paginate_list]

/-- Pagination over a single unit yields the same has_next flag regardless of
the unit. -/
theorem paginate_singleton_has_next (x y : RUnit) (limit : Option Nat) (offset : Nat) :
    (paginate_list [x] limit offset).has_next =
      (paginate_list [y] limit offset).has_next := by
  cases limit <;> rfl

/-- C4: for a chunk-group multiset with arbitrary repeated chunk indices and
full coverage of 0..chunk_count-1, decompress_chunked_snapshot_data returns
exactly the same result as for the deduplicated set (duplicates of a
chunk_index collapse to one), for any pagination parameters. -/
theorem c4_dedup_robustness (w : Option String) (g : String) (cs : List ChunkRecord)
    (limit : Option Nat) (offset : Nat)
    (hg : cs.all (fun c => decide (c.chunk_id = g)) = true)
    (hcov : fullCoverage cs = true) :
    decompress_chunked_snapshot_data (cs.map (tagChunk w)) limit offset =
      decompress_chunked_snapshot_data ((dedupByIndex cs).map (tagChunk w)) limit offset := by
  cases cs with
  | nil => exact absurd hcov (by simp [fullCoverage])
  | cons c rest =>
    have hdg : (dedupByIndex (c :: rest)).all (fun x => decide (x.chunk_id = g)) = true := by
      rw [List.all_eq_true] at hg ⊢
      intro x hx
      exact hg x (mem_dedupByIndex _ x hx)
    have hu1 : collectUnits ((c :: rest).map (tagChunk w)) =
        [RUnit.group w g (c :: rest)] := collectUnits_single_group w g c rest hg
    have hu2 : collectUnits ((dedupByIndex (c :: rest)).map (tagChunk w)) =
        [RUnit.group w g (dedupByIndex (c :: rest))] := by
      rw [dedupByIndex] at hdg ⊢
      exact collectUnits_single_group w g c _ hdg
    have hdec : decodeUnit (RUnit.group w g (dedupByIndex (c :: rest))) =
        decodeUnit (RUnit.group w g (c :: rest)) := decodeUnit_dedup w g c rest
    unfold decompress_chunked_snapshot_data
    rw [if_neg (by simp), if_neg (by rw [dedupByIndex]; simp)]
    rw [hu1, hu2]
    rw [plainContribs_map_group, plainContribs_map_group]
    simp only [List.nil_append]
    rw [paginate_singleton_has_next (RUnit.group w g (c :: rest))
      (RUnit.group w g (dedupByIndex (c :: rest))) limit offset]
    rw [paginate_singleton_flatMap decodeUnit _ _ hdec.symm limit offset]

/-- Witness for c4_dedup_robustness: the concrete multiset [0, 1, 0]
(duplicated index 0, chunk_count 2) decodes exactly as its deduplicated set
[0, 1]. -/
theorem c4_witness :
    decompress_chunked_snapshot_data (c4Multiset.map (tagChunk (some "w"))) none 0 =
      decompress_chunked_snapshot_data
        ((dedupByIndex c4Multiset).map (tagChunk (some "w"))) none 0 :=
  c4_dedup_robustness (some "w") "g" c4Multiset none 0 (by decide) (by decide)

/-- Collecting a group's chunks skips a non-chunk or foreign-group head. -/
theorem collectChunks_cons_skip (g : String) (t : SnapshotDataTaggedWithWindowId)
    (l : List SnapshotDataTaggedWithWindowId) (h : isChunkOf g t = false) :
    collectChunks g (t :: l) = collectChunks g l := by
  unfold collectChunks
  rw [List.filterMap_cons_none]
  unfold isChunkOf at h
  cases ht : t.snapshot_data with
  | plain p => rfl
  | compressed c => rfl
  | chunk ch =>
    rw [ht] at h
    simp only [decide_eq_false_iff_not] at h
    simp [h]

/-- Collecting a group's chunks keeps a matching head chunk. -/
theorem collectChunks_cons_match (g : String) (t : SnapshotDataTaggedWithWindowId)
    (l : List SnapshotDataTaggedWithWindowId) (ch : ChunkRecord)
    (ht : t.snapshot_data = SnapshotData.chunk ch) (hg : ch.chunk_id = g) :
    collectChunks g (t :: l) = ch :: collectChunks g l := by
  unfold collectChunks
  rw [List.filterMap_cons_some]
  rw [ht]
  simp [hg]

/-- Removing one group leaves another group's chunks untouched. -/
theorem collectChunks_removeChunks (g h : String) (hne : h ≠ g) :
    ∀ l, collectChunks h (removeChunks g l) = collectChunks h l := by
  intro l
  induction l with
  | nil => rfl
  | cons t rest ih =>
    unfold removeChunks at ih ⊢
    cases ht : t.snapshot_data with
    | plain p =>
      rw [List.filter_cons_of_pos (by simp [isChunkOf, ht])]
      rw [collectChunks_cons_skip h t _ (by simp [isChunkOf, ht]),
        collectChunks_cons_skip h t _ (by simp [isChunkOf, ht])]
      exact ih
    | compressed c =>
      rw [List.filter_cons_of_pos (by simp [isChunkOf, ht])]
      rw [collectChunks_cons_skip h t _ (by simp [isChunkOf, ht]),
        collectChunks_cons_skip h t _ (by simp [isChunkOf, ht])]
      exact ih
    | chunk ch =>
      by_cases hcg : ch.chunk_id = g
      · rw [List.filter_cons_of_neg (by simp [isChunkOf, ht, hcg])]
        rw [collectChunks_cons_skip h t _
          (by unfold isChunkOf; rw [ht]; simp only [hcg, decide_eq_false_iff_not]
              exact fun hx => hne hx.symm)]
        exact ih
      · rw [List.filter_cons_of_pos (by simp [isChunkOf, ht, hcg])]
        by_cases hch : ch.chunk_id = h
        · rw [collectChunks_cons_match h t _ ch ht hch,
            collectChunks_cons_match h t _ ch ht hch]
          rw [ih]
        · rw [collectChunks_cons_skip h t _ (by simp [isChunkOf, ht, hch]),
            collectChunks_cons_skip h t _ (by simp [isChunkOf, ht, hch])]
          exact ih

/-- Group removals commute. -/
theorem removeChunks_comm (g h : String) (l : List SnapshotDataTaggedWithWindowId) :
    removeChunks h (removeChunks g l) = removeChunks g (removeChunks h l) := by
  unfold removeChunks
  rw [List.filter_filter, List.filter_filter]
  exact List.filter_congr (fun a _ => Bool.and_comm _ _)

/-- plainContribs keeps a plain head. -/
theorem plainContribs_cons_plain (t : SnapshotDataTaggedWithWindowId)
    (l : List SnapshotDataTaggedWithWindowId) (p : PlainSnapshot)
    (ht : t.snapshot_data = SnapshotData.plain p) :
    plainContribs (t :: l) = (t.window_id, [SnapshotData.plain p]) :: plainContribs l := by
  simp [plainContribs, List.filterMap_cons, ht]

/-- plainContribs skips a compressed head. -/
theorem plainContribs_cons_compressed (t : SnapshotDataTaggedWithWindowId)
    (l : List SnapshotDataTaggedWithWindowId) (c : CompressedRecord)
    (ht : t.snapshot_data = SnapshotData.compressed c) :
    plainContribs (t :: l) = plainContribs l := by
  simp [plainContribs, List.filterMap_cons, ht]

/-- plainContribs skips a chunk head. -/
theorem plainContribs_cons_chunk (t : SnapshotDataTaggedWithWindowId)
    (l : List SnapshotDataTaggedWithWindowId) (ch : ChunkRecord)
    (ht : t.snapshot_data = SnapshotData.chunk ch) :
    plainContribs (t :: l) = plainContribs l := by
  simp [plainContribs, List.filterMap_cons, ht]

/-- Removing a chunk group does not affect plain pass-through payloads. -/
theorem plainContribs_removeChunks (g : String) :
    ∀ l, plainContribs (removeChunks g l) = plainContribs l := by
  intro l
  induction l with
  | nil => rfl
  | cons t rest ih =>
    unfold removeChunks at ih ⊢
    cases ht : t.snapshot_data with
    | plain p =>
      rw [List.filter_cons_of_pos (by simp [isChunkOf, ht])]
      rw [plainContribs_cons_plain t _ p ht, plainContribs_cons_plain t rest p ht, ih]
    | compressed c =>
      rw [List.filter_cons_of_pos (by simp [isChunkOf, ht])]
      rw [plainContribs_cons_compressed t _ c ht, plainContribs_cons_compressed t rest c ht]
      exact ih
    | chunk ch =>
      by_cases hcg : ch.chunk_id = g
      · rw [List.filter_cons_of_neg (by simp [isChunkOf, ht, hcg])]
        rw [plainContribs_cons_chunk t rest ch ht]
        exact ih
      · rw [List.filter_cons_of_pos (by simp [isChunkOf, ht, hcg])]
        rw [plainContribs_cons_chunk t _ ch ht, plainContribs_cons_chunk t rest ch ht]
        exact ih

/-- Deduplication preserves which indices occur in a group. -/
theorem any_dedupByIndex (l : List ChunkRecord) :
    ∀ i : Nat, (dedupByIndex l).any (fun c => decide (c.chunk_index = i)) =
      l.any (fun c => decide (c.chunk_index = i)) := by
  induction l using dedupByIndex.induct with
  | case1 => intro i; simp [dedupByIndex]
  | case2 c rest ih =>
    intro i
    simp only [dedupByIndex, List.any_cons]
    rw [ih i]
    by_cases hc : c.chunk_index = i
    · simp [hc]
    · have : ∀ l2 : List ChunkRecord,
          (l2.filter (fun c2 => !decide (c2.chunk_index = c.chunk_index))).any
            (fun x => decide (x.chunk_index = i)) =
          l2.any (fun x => decide (x.chunk_index = i)) := by
        intro l2
        induction l2 with
        | nil => rfl
        | cons d ds ihd =>
          by_cases hdx : d.chunk_index = c.chunk_index
          · rw [List.filter_cons_of_neg (by simp [hdx])]
            rw [ihd, List.any_cons]
            have : decide (d.chunk_index = i) = false := by
              simp [hdx]; intro hcon; exact hc (hdx ▸ hcon)
            simp [this]
          · rw [List.filter_cons_of_pos (by simp [hdx])]
            rw [List.any_cons, List.any_cons, ihd]
      rw [this]

/-- removeChunks keeps a head that is not part of the group. -/
theorem removeChunks_cons_keep (g : String) (t : SnapshotDataTaggedWithWindowId)
    (l : List SnapshotDataTaggedWithWindowId) (h : isChunkOf g t = false) :
    removeChunks g (t :: l) = t :: removeChunks g l := by
  unfold removeChunks
  rw [List.filter_cons_of_pos (by simp [h])]

/-- removeChunks drops a head chunk of the group. -/
theorem removeChunks_cons_drop (g : String) (t : SnapshotDataTaggedWithWindowId)
    (l : List SnapshotDataTaggedWithWindowId) (h : isChunkOf g t = true) :
    removeChunks g (t :: l) = removeChunks g l := by
  unfold removeChunks
  rw [List.filter_cons_of_neg (by simp [h])]

/-- A group failing full coverage is undecodable. -/
theorem decodeGroup_none (c : ChunkRecord) (rest : List ChunkRecord)
    (h : fullCoverage (c :: rest) = false) : decodeGroup (c :: rest) = none := by
  simp only [fullCoverage] at h
  simp only [decodeGroup]
  have hfun : (fun i => (dedupByIndex (c :: rest)).any (fun x => decide (x.chunk_index = i)))
      = (fun i => (c :: rest).any (fun x => decide (x.chunk_index = i))) :=
    funext (fun i => any_dedupByIndex (c :: rest) i)
  rw [hfun, h]
  rfl

/-- Removing an incomplete chunk group leaves the decoded unit contributions
unchanged: the group decodes to nothing and every other unit is unaffected. -/
theorem flatMap_collectUnits_remove (g : String) :
    ∀ (n : Nat) (l : List SnapshotDataTaggedWithWindowId), l.length ≤ n →
      groupIncomplete g l = true →
      (collectUnits l).flatMap decodeUnit =
        (collectUnits (removeChunks g l)).flatMap decodeUnit := by
  intro n
  induction n with
  | zero =>
    intro l hl hbad
    cases l with
    | nil => rfl
    | cons t rest => simp at hl
  | succ m ih =>
    intro l hl hbad
    cases l with
    | nil => rfl
    | cons t rest =>
      have hlr : rest.length ≤ m := by simpa using hl
      cases ht : t.snapshot_data with
      | plain p =>
        have hskip : isChunkOf g t = false := by simp [isChunkOf, ht]
        have hbr : groupIncomplete g rest = true := by
          unfold groupIncomplete at hbad ⊢
          rw [collectChunks_cons_skip g t rest hskip] at hbad
          exact hbad
        rw [removeChunks_cons_keep g t rest hskip]
        simp only [collectUnits, ht]
        exact ih rest hlr hbr
      | compressed c =>
        have hskip : isChunkOf g t = false := by simp [isChunkOf, ht]
        have hbr : groupIncomplete g rest = true := by
          unfold groupIncomplete at hbad ⊢
          rw [collectChunks_cons_skip g t rest hskip] at hbad
          exact hbad
        rw [removeChunks_cons_keep g t rest hskip]
        simp only [collectUnits, ht]
        rw [List.flatMap_cons, List.flatMap_cons]
        rw [ih rest hlr hbr]
      | chunk ch =>
        by_cases hcg : ch.chunk_id = g
        · -- the head opens the incomplete group itself
          have hcc : collectChunks g (t :: rest) = ch :: collectChunks g rest :=
            collectChunks_cons_match g t rest ch ht hcg
          have hcov : fullCoverage (ch :: collectChunks g rest) = false := by
            simp only [groupIncomplete, hcc, Bool.not_eq_true'] at hbad
            exact hbad
          rw [removeChunks_cons_drop g t rest (by simp [isChunkOf, ht, hcg])]
          simp only [collectUnits, ht]
          rw [List.flatMap_cons]
          rw [hcg]
          have hdec : decodeUnit (RUnit.group t.window_id g (ch :: collectChunks g rest)) = [] := by
            simp only [decodeUnit]
            rw [decodeGroup_none ch (collectChunks g rest) hcov]
          rw [hdec, List.nil_append]
        · -- a foreign group's head: gather it on both sides and recurse
          have hh : ch.chunk_id ≠ g := hcg
          have hskip : isChunkOf g t = false := by
            unfold isChunkOf
            rw [ht]
            simp [hcg]
          have hbr : groupIncomplete g (removeChunks ch.chunk_id rest) = true := by
            unfold groupIncomplete at hbad ⊢
            rw [collectChunks_cons_skip g t rest hskip] at hbad
            rw [collectChunks_removeChunks ch.chunk_id g (fun hx => hcg hx.symm) rest]
            exact hbad
          have hrm : (removeChunks ch.chunk_id rest).length ≤ m :=
            le_trans (List.length_filter_le _ _) hlr
          rw [removeChunks_cons_keep g t rest hskip]
          simp only [collectUnits, ht]
          rw [List.flatMap_cons, List.flatMap_cons]
          rw [collectChunks_removeChunks g ch.chunk_id hh rest]
          rw [removeChunks_comm g ch.chunk_id rest]
          rw [ih (removeChunks ch.chunk_id rest) hrm hbr]

/-- C3: an input containing a chunk group whose distinct chunk_index set does
not cover 0..chunk_count-1 (even after deduplication, regardless of duplicate
or extra chunks of other indices) decompresses exactly as if that group's
chunks were absent: the group is dropped silently, contributing no payloads
and no partial decoding, and no error is possible (the function is total). -/
theorem c3_incomplete_group_dropped (events : List SnapshotDataTaggedWithWindowId)
    (g : String) (hbad : groupIncomplete g events = true) :
    decompress_chunked_snapshot_data events none 0 =
      decompress_chunked_snapshot_data (removeChunks g events) none 0 := by
  have hflat := flatMap_collectUnits_remove g events.length events (le_refl _) hbad
  have hplains := plainContribs_removeChunks g events
  cases events with
  | nil => simp [groupIncomplete, collectChunks] at hbad
  | cons t rest =>
    unfold decompress_chunked_snapshot_data
    rw [if_neg (by simp)]
    cases hrm : removeChunks g (t :: rest) with
    | nil =>
      rw [if_pos (show ([] : List SnapshotDataTaggedWithWindowId).isEmpty = true from rfl)]
      rw [hrm] at hflat hplains
      simp only [paginate_list, List.drop_zero]
      rw [hflat, ← hplains]
      simp [collectUnits, plainContribs, buildMap]
    | cons r rs =>
      rw [if_neg (by simp)]
      rw [hrm] at hflat hplains
      simp only [paginate_list, List.drop_zero]
      rw [hflat, ← hplains]

/-- Witness for c3_incomplete_group_dropped: a concrete input holding an
incomplete group (only index 1 of 2) next to a compressed record decompresses
exactly as the input without that group. -/
theorem c3_witness :
    decompress_chunked_snapshot_data c3Demo none 0 =
      decompress_chunked_snapshot_data (removeChunks "bad" c3Demo) none 0 :=
  c3_incomplete_group_dropped c3Demo "bad" (by decide)

/-- Sizes of item lists add over concatenation. -/
theorem compressedSize_append (a b : List CompressedItem) :
    compressedSize (a ++ b) = compressedSize a + compressedSize b := by
  induction a with
  | nil => simp [compressedSize]
  | cons i rest ih =>
    unfold compressedSize at ih ⊢
    simp only [List.cons_append, List.foldr_cons]
    omega

/-- Merging keeps the accumulated event's name and grouping key. -/
theorem mergeEvents_fields (a e : PostHogEvent) :
    (mergeEvents a e).event = a.event ∧ eventKey (mergeEvents a e) = eventKey a := by
  unfold mergeEvents
  split
  · exact ⟨rfl, rfl⟩
  · exact ⟨rfl, rfl⟩

/-- A successful merge needs both sides in compressed shape. -/
theorem canMerge_shapes (maxSize : Nat) (a e : PostHogEvent)
    (h : canMerge maxSize a e = true) :
    isCompressedShape a = true ∧ isCompressedShape e = true := by
  unfold canMerge at h
  cases hsa : a.snapshot_data with
  | none => rw [hsa] at h; exact absurd h (by simp)
  | some sa =>
    cases sa with
    | plain p => rw [hsa] at h; exact absurd h (by simp)
    | chunk ch => rw [hsa] at h; exact absurd h (by simp)
    | compressed ca =>
      cases hse : e.snapshot_data with
      | none => rw [hsa, hse] at h; exact absurd h (by simp)
      | some se =>
        cases se with
        | plain p => rw [hsa, hse] at h; exact absurd h (by simp)
        | chunk ch => rw [hsa, hse] at h; exact absurd h (by simp)
        | compressed ce =>
          constructor
          · simp [isCompressedShape, hsa]
          · simp [isCompressedShape, hse]

/-- Merging is impossible when the accumulated event is not compressed. -/
theorem canMerge_false_left (maxSize : Nat) (a e : PostHogEvent)
    (h : isCompressedShape a = false) : canMerge maxSize a e = false := by
  cases hc : canMerge maxSize a e with
  | false => rfl
  | true => exact absurd (canMerge_shapes maxSize a e hc).1 (by rw [h]; simp)

/-- Merging is impossible when the incoming event is not compressed. -/
theorem canMerge_false_right (maxSize : Nat) (a e : PostHogEvent)
    (h : isCompressedShape e = false) : canMerge maxSize a e = false := by
  cases hc : canMerge maxSize a e with
  | false => rfl
  | true => exact absurd (canMerge_shapes maxSize a e hc).2 (by rw [h]; simp)

/-- The size of a merged pair of compressed events is the envelope plus both
item sizes. -/
theorem merge_size (a e : PostHogEvent)
    (ha : isCompressedShape a = true) (he : isCompressedShape e = true) :
    byte_size_dict (mergeEvents a e) =
      50 + compressedSize (eventItems a) + compressedSize (eventItems e) := by
  unfold isCompressedShape at ha he
  cases hsa : a.snapshot_data with
  | none => rw [hsa] at ha; exact absurd ha (by simp)
  | some sa =>
    cases sa with
    | plain p => rw [hsa] at ha; exact absurd ha (by simp)
    | chunk ch => rw [hsa] at ha; exact absurd ha (by simp)
    | compressed ca =>
      cases hse : e.snapshot_data with
      | none => rw [hse] at he; exact absurd he (by simp)
      | some se =>
        cases se with
        | plain p => rw [hse] at he; exact absurd he (by simp)
        | chunk ch => rw [hse] at he; exact absurd he (by simp)
        | compressed ce =>
          simp only [byte_size_dict, mergeEvents, eventItems, mergeRecords,
            snapshotDataSize, hsa, hse]
          rw [compressedSize_append]
          omega

/-- The items of a merged pair concatenate. -/
theorem merge_items (a e : PostHogEvent)
    (ha : isCompressedShape a = true) (he : isCompressedShape e = true) :
    eventItems (mergeEvents a e) = eventItems a ++ eventItems e := by
  unfold isCompressedShape at ha he
  cases hsa : a.snapshot_data with
  | none => rw [hsa] at ha; exact absurd ha (by simp)
  | some sa =>
    cases sa with
    | plain p => rw [hsa] at ha; exact absurd ha (by simp)
    | chunk ch => rw [hsa] at ha; exact absurd ha (by simp)
    | compressed ca =>
      cases hse : e.snapshot_data with
      | none => rw [hse] at he; exact absurd he (by simp)
      | some se =>
        cases se with
        | plain p => rw [hse] at he; exact absurd he (by simp)
        | chunk ch => rw [hse] at he; exact absurd he (by simp)
        | compressed ce =>
          simp [mergeEvents, eventItems, mergeRecords, hsa, hse]

/-- The merged result is compressed. -/
theorem merge_compressed (a e : PostHogEvent)
    (ha : isCompressedShape a = true) (he : isCompressedShape e = true) :
    isCompressedShape (mergeEvents a e) = true := by
  unfold isCompressedShape at ha he
  cases hsa : a.snapshot_data with
  | none => rw [hsa] at ha; exact absurd ha (by simp)
  | some sa =>
    cases sa with
    | plain p => rw [hsa] at ha; exact absurd ha (by simp)
    | chunk ch => rw [hsa] at ha; exact absurd ha (by simp)
    | compressed ca =>
      cases hse : e.snapshot_data with
      | none => rw [hse] at he; exact absurd he (by simp)
      | some se =>
        cases se with
        | plain p => rw [hse] at he; exact absurd he (by simp)
        | chunk ch => rw [hse] at he; exact absurd he (by simp)
        | compressed ce =>
          simp [isCompressedShape, mergeEvents, hsa, hse]

/-- For compressed events, merging succeeds exactly when the combined size
fits the budget. -/
theorem canMerge_eq_of_compressed (maxSize : Nat) (a e : PostHogEvent)
    (ha : isCompressedShape a = true) (he : isCompressedShape e = true) :
    canMerge maxSize a e =
      decide (50 + compressedSize (eventItems a) + compressedSize (eventItems e) ≤ maxSize) := by
  have hms := merge_size a e ha he
  unfold isCompressedShape at ha he
  unfold canMerge
  cases hsa : a.snapshot_data with
  | none => rw [hsa] at ha; exact absurd ha (by simp)
  | some sa =>
    cases sa with
    | plain p => rw [hsa] at ha; exact absurd ha (by simp)
    | chunk ch => rw [hsa] at ha; exact absurd ha (by simp)
    | compressed ca =>
      cases hse : e.snapshot_data with
      | none => rw [hse] at he; exact absurd he (by simp)
      | some se =>
        cases se with
        | plain p => rw [hse] at he; exact absurd he (by simp)
        | chunk ch => rw [hse] at he; exact absurd he (by simp)
        | compressed ce =>
          show decide (byte_size_dict (mergeEvents a e) ≤ maxSize) = _
          rw [hms]

/-- A failed merge stays failed against any compressed event with at least as
many item bytes. -/
theorem canMerge_false_mono (maxSize : Nat) (a b b2 : PostHogEvent)
    (h : canMerge maxSize a b = false)
    (hb : isCompressedShape b = true) (hb2 : isCompressedShape b2 = true)
    (hsz : compressedSize (eventItems b) ≤ compressedSize (eventItems b2)) :
    canMerge maxSize a b2 = false := by
  cases ha : isCompressedShape a with
  | false => exact canMerge_false_left maxSize a b2 ha
  | true =>
    rw [canMerge_eq_of_compressed maxSize a b ha hb] at h
    rw [canMerge_eq_of_compressed maxSize a b2 ha hb2]
    simp only [decide_eq_false_iff_not] at h ⊢
    omega

/-- Greedy reduction preserves any property closed under merging. -/
theorem reduceAux_all (maxSize : Nat) (P : PostHogEvent → Prop)
    (hP : ∀ a e, P a → P e → P (mergeEvents a e)) :
    ∀ (l : List PostHogEvent) (acc : PostHogEvent), P acc → (∀ x ∈ l, P x) →
      ∀ y ∈ reduceAux maxSize acc l, P y := by
  intro l
  induction l with
  | nil =>
    intro acc hacc _ y hy
    unfold reduceAux at hy
    rw [List.mem_singleton] at hy
    subst hy
    exact hacc
  | cons e rest ih =>
    intro acc hacc hall y hy
    unfold reduceAux at hy
    by_cases hc : canMerge maxSize acc e = true
    · rw [if_pos hc] at hy
      exact ih (mergeEvents acc e)
        (hP acc e hacc (hall e (List.mem_cons_self _ _)))
        (fun x hx => hall x (List.mem_cons_of_mem _ hx)) y hy
    · rw [if_neg hc] at hy
      rcases List.mem_cons.mp hy with rfl | hy
      · exact hacc
      · exact ih e (hall e (List.mem_cons_self _ _))
          (fun x hx => hall x (List.mem_cons_of_mem _ hx)) y hy

/-- Reduction of a group never produces an empty list from a nonempty one. -/
theorem reduceAux_ne_nil (maxSize : Nat) :
    ∀ (l : List PostHogEvent) (acc : PostHogEvent), reduceAux maxSize acc l ≠ [] := by
  intro l
  induction l with
  | nil => intro acc h; exact absurd h (by unfold reduceAux; simp)
  | cons e rest ih =>
    intro acc
    unfold reduceAux
    by_cases hc : canMerge maxSize acc e = true
    · rw [if_pos hc]; exact ih (mergeEvents acc e)
    · rw [if_neg hc]; simp

/-- The head of a greedy reduction extends the accumulated event: it is the
accumulator itself when that is not compressed, and otherwise a compressed
event carrying at least the accumulator's item bytes. -/
theorem reduceAux_headext (maxSize : Nat) :
    ∀ (l : List PostHogEvent) (acc : PostHogEvent),
      ∀ h ∈ (reduceAux maxSize acc l).head?,
        (isCompressedShape acc = false → h = acc) ∧
        (isCompressedShape acc = true → isCompressedShape h = true ∧
          compressedSize (eventItems acc) ≤ compressedSize (eventItems h)) := by
  intro l
  induction l with
  | nil =>
    intro acc h hh
    unfold reduceAux at hh
    simp only [List.head?_cons, Option.mem_def, Option.some.injEq] at hh
    subst hh
    exact ⟨fun _ => rfl, fun hC => ⟨hC, le_refl _⟩⟩
  | cons e rest ih =>
    intro acc h hh
    unfold reduceAux at hh
    by_cases hc : canMerge maxSize acc e = true
    · rw [if_pos hc] at hh
      obtain ⟨hca, hce⟩ := canMerge_shapes maxSize acc e hc
      have hm := ih (mergeEvents acc e) h hh
      refine ⟨fun hf => absurd hca (by simp [hf]), fun hC => ?_⟩
      have h2 := hm.2 (merge_compressed acc e hca hce)
      refine ⟨h2.1, le_trans ?_ h2.2⟩
      rw [merge_items acc e hca hce, compressedSize_append]
      omega
    · rw [if_neg hc] at hh
      simp only [List.head?_cons, Option.mem_def, Option.some.injEq] at hh
      subst hh
      exact ⟨fun _ => rfl, fun hC => ⟨hC, le_refl _⟩⟩

/-- The outputs of a greedy reduction are pairwise unmergeable in order. -/
theorem reduceAux_chain (maxSize : Nat) :
    ∀ (l : List PostHogEvent) (acc : PostHogEvent),
      List.Chain' (fun a b => canMerge maxSize a b = false) (reduceAux maxSize acc l) := by
  intro l
  induction l with
  | nil => intro acc; unfold reduceAux; simp
  | cons e rest ih =>
    intro acc
    unfold reduceAux
    by_cases hc : canMerge maxSize acc e = true
    · rw [if_pos hc]; exact ih (mergeEvents acc e)
    · rw [if_neg hc]
      have hc2 : canMerge maxSize acc e = false := by
        cases hcc : canMerge maxSize acc e with
        | false => rfl
        | true => exact absurd hcc hc
      rw [List.chain'_cons']
      refine ⟨?_, ih e⟩
      intro y hy
      have hext := reduceAux_headext maxSize rest e y hy
      cases hce : isCompressedShape e with
      | false =>
        rw [hext.1 hce]
        exact hc2
      | true =>
        obtain ⟨hyc, hsz⟩ := hext.2 hce
        exact canMerge_false_mono maxSize acc e y hc2 hce hyc hsz

/-- A list already pairwise unmergeable is a fixed point of the reducer. -/
theorem reduceAux_of_chain (maxSize : Nat) :
    ∀ (l : List PostHogEvent) (acc : PostHogEvent),
      List.Chain' (fun a b => canMerge maxSize a b = false) (acc :: l) →
      reduceAux maxSize acc l = acc :: l := by
  intro l
  induction l with
  | nil => intro acc _; rfl
  | cons e rest ih =>
    intro acc hch
    rw [List.chain'_cons] at hch
    unfold reduceAux
    rw [if_neg (by simp [hch.1])]
    rw [ih e hch.2]

/-- A group already pairwise unmergeable reduces to itself. -/
theorem reduceGroup_of_chain (maxSize : Nat) (l : List PostHogEvent)
    (h : List.Chain' (fun a b => canMerge maxSize a b = false) l) :
    reduceGroup maxSize l = l := by
  cases l with
  | nil => rfl
  | cons e rest =>
    unfold reduceGroup
    exact reduceAux_of_chain maxSize rest e h

/-- Greedy reduction preserves the concatenated item stream. -/
theorem reduceAux_items (maxSize : Nat) :
    ∀ (l : List PostHogEvent) (acc : PostHogEvent),
      (reduceAux maxSize acc l).flatMap eventItems =
        eventItems acc ++ l.flatMap eventItems := by
  intro l
  induction l with
  | nil =>
    intro acc
    unfold reduceAux
    simp
  | cons e rest ih =>
    intro acc
    unfold reduceAux
    by_cases hc : canMerge maxSize acc e = true
    · rw [if_pos hc]
      obtain ⟨hca, hce⟩ := canMerge_shapes maxSize acc e hc
      rw [ih (mergeEvents acc e)]
      rw [merge_items acc e hca hce]
      simp [List.append_assoc]
    · rw [if_neg hc]
      rw [List.flatMap_cons, ih e]
      simp

/-- Greedy packing always yields at least one slice. -/
theorem packAux_ne_nil (maxSize : Nat) :
    ∀ (l cur : List CompressedItem) (sz : Nat), packAux maxSize cur sz l ≠ [] := by
  intro l
  induction l with
  | nil => intro cur sz; unfold packAux; simp
  | cons i rest ih =>
    intro cur sz
    unfold packAux
    by_cases hc : 50 + sz + compressedItemSize i ≤ maxSize
    · rw [if_pos hc]; exact ih _ _
    · rw [if_neg hc]; simp

/-- packItems never returns an empty slice list. -/
theorem packItems_ne_nil (maxSize : Nat) (items : List CompressedItem) :
    packItems maxSize items ≠ [] := by
  cases items with
  | nil => unfold packItems; simp
  | cons i rest => unfold packItems; exact packAux_ne_nil maxSize rest [i] _

/-- Enumeration preserves emptiness. -/
theorem enumFrom_ne_nil (i : Nat) (l : List α) (h : l ≠ []) : enumFrom i l ≠ [] := by
  cases l with
  | nil => exact absurd rfl h
  | cons x rest => unfold enumFrom; simp

/-- Chunking one event always produces at least one event. -/
theorem expandEvent_ne_nil (maxSize n : Nat) (e : PostHogEvent) :
    expandEvent maxSize n e ≠ [] := by
  unfold expandEvent
  split
  · split
    · simp
    · unfold mkChunkEvents
      intro hmap
      rw [List.map_eq_nil_iff] at hmap
      exact enumFrom_ne_nil 0 _ (packItems_ne_nil maxSize _) hmap
  · simp

/-- Every member of a chunk split is chunk-shaped. -/
theorem mkChunkEvents_shape (e : PostHogEvent) (c : CompressedRecord) (cid : String)
    (slices : List (List CompressedItem)) :
    ∀ y ∈ mkChunkEvents e c cid slices,
      isCompressedShape y = false ∧ isPlainShape y = false ∧
      y.event = e.event ∧ eventKey y = eventKey e := by
  intro y hy
  unfold mkChunkEvents at hy
  rw [List.mem_map] at hy
  obtain ⟨p, _, rfl⟩ := hy
  exact ⟨rfl, rfl, rfl, rfl⟩

/-- Every event produced by chunking one event keeps its name and grouping
key. -/
theorem expandEvent_fields (maxSize n : Nat) (e : PostHogEvent) :
    ∀ y ∈ expandEvent maxSize n e, y.event = e.event ∧ eventKey y = eventKey e := by
  intro y hy
  unfold expandEvent at hy
  split at hy
  · split at hy
    · rw [List.mem_singleton] at hy; subst hy; exact ⟨rfl, rfl⟩
    · have h2 := mkChunkEvents_shape _ _ _ _ y hy
      exact ⟨h2.2.2.1, h2.2.2.2⟩
  · rw [List.mem_singleton] at hy; subst hy; exact ⟨rfl, rfl⟩

/-- Every event produced by chunking is the original or chunk-shaped. -/
theorem expandEvent_shape (maxSize n : Nat) (e : PostHogEvent) :
    ∀ y ∈ expandEvent maxSize n e,
      y = e ∨ (isCompressedShape y = false ∧ isPlainShape y = false) := by
  intro y hy
  unfold expandEvent at hy
  split at hy
  · split at hy
    · rw [List.mem_singleton] at hy; exact Or.inl hy
    · have h2 := mkChunkEvents_shape _ _ _ _ y hy
      exact Or.inr ⟨h2.1, h2.2.1⟩
  · rw [List.mem_singleton] at hy; exact Or.inl hy

/-- An event within budget (or not compressed) passes through chunking. -/
theorem expandEvent_pass (maxSize n : Nat) (e : PostHogEvent)
    (h : isCompressedShape e = true → byte_size_dict e ≤ maxSize) :
    expandEvent maxSize n e = [e] := by
  unfold expandEvent
  split
  · rename_i c heq
    rw [if_pos (h (by simp [isCompressedShape, heq]))]
  · rfl

/-- Compressed members of an expansion stay within budget. -/
theorem expandEvent_small (maxSize n : Nat) (e : PostHogEvent) :
    ∀ y ∈ expandEvent maxSize n e, isCompressedShape y = true →
      byte_size_dict y ≤ maxSize := by
  intro y hy hc
  unfold expandEvent at hy
  split at hy
  · split at hy
    · rename_i hsz
      rw [List.mem_singleton] at hy; subst hy; exact hsz
    · have h2 := mkChunkEvents_shape _ _ _ _ y hy
      rw [h2.1] at hc; exact absurd hc (by simp)
  · rw [List.mem_singleton] at hy; subst hy
    rename_i hne
    unfold isCompressedShape at hc
    cases hsd : y.snapshot_data with
    | none => rw [hsd] at hc; exact absurd hc (by simp)
    | some sd =>
      cases sd with
      | plain p => rw [hsd] at hc; exact absurd hc (by simp)
      | chunk ch => rw [hsd] at hc; exact absurd hc (by simp)
      | compressed c => exact absurd (hne c hsd) (by simp)

/-- Chunking distributes over concatenation, shifting the counter. -/
theorem chunkAll_append (maxSize : Nat) :
    ∀ (xs ys : List PostHogEvent) (n : Nat),
      chunkAll maxSize n (xs ++ ys) =
        chunkAll maxSize n xs ++ chunkAll maxSize (n + xs.length) ys := by
  intro xs
  induction xs with
  | nil => intro ys n; simp [chunkAll]
  | cons x rest ih =>
    intro ys n
    rw [List.cons_append]
    rw [show chunkAll maxSize n (x :: (rest ++ ys)) =
        expandEvent maxSize n x ++ chunkAll maxSize (n + 1) (rest ++ ys) from by
      simp [chunkAll]]
    rw [show chunkAll maxSize n (x :: rest) =
        expandEvent maxSize n x ++ chunkAll maxSize (n + 1) rest from by
      simp [chunkAll]]
    rw [ih ys (n + 1), List.append_assoc]
    have h2 : n + 1 + rest.length = n + (x :: rest).length := by simp; omega
    rw [h2]

/-- Every chunked output comes from expanding some input event. -/
theorem mem_chunkAll (maxSize : Nat) :
    ∀ (l : List PostHogEvent) (n : Nat) (y : PostHogEvent), y ∈ chunkAll maxSize n l →
      ∃ e ∈ l, ∃ k, y ∈ expandEvent maxSize k e := by
  intro l
  induction l with
  | nil => intro n y hy; exact absurd hy (by simp [chunkAll])
  | cons e rest ih =>
    intro n y hy
    unfold chunkAll at hy
    rcases List.mem_append.mp hy with hy | hy
    · exact ⟨e, List.mem_cons_self _ _, n, hy⟩
    · obtain ⟨e2, he2, k, hk⟩ := ih (n + 1) y hy
      exact ⟨e2, List.mem_cons_of_mem _ he2, k, hk⟩

/-- When every event passes through, chunking is the identity. -/
theorem chunkAll_eq_self (maxSize : Nat) :
    ∀ (l : List PostHogEvent) (n : Nat),
      (∀ e ∈ l, ∀ k, expandEvent maxSize k e = [e]) →
      chunkAll maxSize n l = l := by
  intro l
  induction l with
  | nil => intro n _; rfl
  | cons e rest ih =>
    intro n h
    unfold chunkAll
    rw [h e (List.mem_cons_self _ _) n]
    rw [ih (n + 1) (fun x hx k => h x (List.mem_cons_of_mem _ hx) k)]
    rfl

/-- Chunking a nonempty list yields a nonempty list. -/
theorem chunkAll_ne_nil (maxSize n : Nat) (e : PostHogEvent) (l : List PostHogEvent) :
    chunkAll maxSize n (e :: l) ≠ [] := by
  unfold chunkAll
  intro h
  rw [List.append_eq_nil] at h
  exact expandEvent_ne_nil maxSize n e h.1

/-- A run of non-compressed events is pairwise unmergeable. -/
theorem chain_not_compressed (maxSize : Nat) :
    ∀ l : List PostHogEvent, (∀ x ∈ l, isCompressedShape x = false) →
      List.Chain' (fun a b => canMerge maxSize a b = false) l := by
  intro l
  induction l with
  | nil => intro _; simp
  | cons x rest ih =>
    intro h
    rw [List.chain'_cons']
    refine ⟨?_, ih (fun z hz => h z (List.mem_cons_of_mem _ hz))⟩
    intro y _
    exact canMerge_false_left maxSize x y (h x (List.mem_cons_self _ _))

/-- The expansion of one event is pairwise unmergeable. -/
theorem expandEvent_chain (maxSize n : Nat) (e : PostHogEvent) :
    List.Chain' (fun a b => canMerge maxSize a b = false) (expandEvent maxSize n e) := by
  unfold expandEvent
  split
  · split
    · simp
    · apply chain_not_compressed
      intro x hx
      exact (mkChunkEvents_shape _ _ _ _ x hx).1
  · simp

/-- The first chunked output is the first input event or chunk-shaped. -/
theorem chunkAll_head_cases (maxSize : Nat) :
    ∀ (l : List PostHogEvent) (n : Nat) (y : PostHogEvent),
      y ∈ (chunkAll maxSize n l).head? →
      (∃ e2 ∈ l.head?, y = e2) ∨ isCompressedShape y = false := by
  intro l n y hy
  cases l with
  | nil => exact absurd hy (by simp [chunkAll])
  | cons e rest =>
    unfold chunkAll at hy
    have hne := expandEvent_ne_nil maxSize n e
    cases hexp : expandEvent maxSize n e with
    | nil => exact absurd hexp hne
    | cons z zs =>
      rw [hexp] at hy
      rw [List.cons_append] at hy
      simp only [List.head?_cons, Option.mem_def, Option.some.injEq] at hy
      subst hy
      have hz : z ∈ expandEvent maxSize n e := by rw [hexp]; exact List.mem_cons_self _ _
      rcases expandEvent_shape maxSize n e z hz with heq | hsh
      · exact Or.inl ⟨e, by simp, heq⟩
      · exact Or.inr hsh.1

/-- Every element of an expansion's getLast? is the original or chunk-shaped. -/
theorem expandEvent_last_cases (maxSize n : Nat) (e : PostHogEvent) :
    ∀ y ∈ (expandEvent maxSize n e).getLast?,
      y = e ∨ isCompressedShape y = false := by
  intro y hy
  have hmem : y ∈ expandEvent maxSize n e := by
    cases hexp : expandEvent maxSize n e with
    | nil => rw [hexp] at hy; simp at hy
    | cons z zs =>
      rw [hexp] at hy
      exact List.mem_of_mem_getLast? hy
  rcases expandEvent_shape maxSize n e y hmem with rfl | hsh
  · exact Or.inl rfl
  · exact Or.inr hsh.1

/-- Chunking preserves pairwise unmergeability. -/
theorem chain_chunkAll (maxSize : Nat) :
    ∀ (l : List PostHogEvent) (n : Nat),
      List.Chain' (fun a b => canMerge maxSize a b = false) l →
      List.Chain' (fun a b => canMerge maxSize a b = false) (chunkAll maxSize n l) := by
  intro l
  induction l with
  | nil => intro n _; simp [chunkAll]
  | cons e rest ih =>
    intro n h
    unfold chunkAll
    rw [List.chain'_append]
    refine ⟨expandEvent_chain maxSize n e, ih (n + 1) h.tail, ?_⟩
    intro x hx y hy
    rcases expandEvent_last_cases maxSize n e x hx with hxe | hxc
    · rcases chunkAll_head_cases maxSize rest (n + 1) y hy with ⟨e2, he2, heq⟩ | hyc
      · rw [hxe, heq]
        exact (List.chain'_cons'.mp h).1 e2 he2
      · exact canMerge_false_right maxSize x y hyc
    · exact canMerge_false_left maxSize x y hxc

/-- Each group of groupByKey is nonempty, uniform in its key, and drawn from
the input. -/
theorem groupByKey_sound :
    ∀ l, ∀ p ∈ groupByKey l,
      p.2 ≠ [] ∧ (∀ e ∈ p.2, eventKey e = p.1) ∧ (∀ e ∈ p.2, e ∈ l) := by
  intro l
  induction l using groupByKey.induct with
  | case1 => intro p hp; simp [groupByKey] at hp
  | case2 e rest ih =>
    intro p hp
    simp only [groupByKey] at hp
    rcases List.mem_cons.mp hp with rfl | hp
    · refine ⟨by simp, ?_, ?_⟩
      · intro x hx
        rcases List.mem_cons.mp hx with rfl | hx
        · rfl
        · have h2 := List.mem_filter.mp hx
          simpa using h2.2
      · intro x hx
        rcases List.mem_cons.mp hx with rfl | hx
        · exact List.mem_cons_self _ _
        · exact List.mem_cons_of_mem _ (List.mem_of_mem_filter hx)
    · obtain ⟨h1, h2, h3⟩ := ih p hp
      exact ⟨h1, h2, fun x hx => List.mem_cons_of_mem _ (List.mem_of_mem_filter (h3 x hx))⟩

/-- Every key of groupByKey is the key of some input event. -/
theorem groupByKey_keys_mem :
    ∀ l k, k ∈ (groupByKey l).map Prod.fst → ∃ e ∈ l, eventKey e = k := by
  intro l
  induction l using groupByKey.induct with
  | case1 => intro k hk; simp [groupByKey] at hk
  | case2 e rest ih =>
    intro k hk
    simp only [groupByKey, List.map_cons] at hk
    rcases List.mem_cons.mp hk with rfl | hk
    · exact ⟨e, List.mem_cons_self _ _, rfl⟩
    · obtain ⟨x, hx, hxk⟩ := ih k hk
      exact ⟨x, List.mem_cons_of_mem _ (List.mem_of_mem_filter hx), hxk⟩

/-- groupByKey produces pairwise distinct keys. -/
theorem groupByKey_keys_nodup : ∀ l, ((groupByKey l).map Prod.fst).Nodup := by
  intro l
  induction l using groupByKey.induct with
  | case1 => simp [groupByKey]
  | case2 e rest ih =>
    simp only [groupByKey, List.map_cons]
    rw [List.nodup_cons]
    refine ⟨?_, ih⟩
    intro hk
    obtain ⟨x, hx, hxk⟩ := groupByKey_keys_mem _ _ hk
    have h2 := List.mem_filter.mp hx
    rw [hxk] at h2
    simp at h2

/-- flatMap respects pointwise-equal functions. -/
theorem flatMap_congr2 {α β : Type} :
    ∀ (l : List α) (f g : α → List β), (∀ b ∈ l, f b = g b) →
      l.flatMap f = l.flatMap g := by
  intro l f g
  induction l with
  | nil => intro _; rfl
  | cons x rest ih =>
    intro h
    rw [List.flatMap_cons, List.flatMap_cons, h x (List.mem_cons_self _ _),
      ih (fun b hb => h b (List.mem_cons_of_mem _ hb))]

/-- Grouping the concatenation of nonempty uniform blocks with pairwise
distinct keys recovers exactly those blocks. -/
theorem groupByKey_flat_blocks :
    ∀ (bs : List ((Option String × Option String) × List PostHogEvent)),
      (∀ b ∈ bs, b.2 ≠ []) →
      (∀ b ∈ bs, ∀ e ∈ b.2, eventKey e = b.1) →
      ((bs.map Prod.fst).Nodup) →
      groupByKey (bs.flatMap (fun b => b.2)) = bs := by
  intro bs
  induction bs with
  | nil => intro _ _ _; simp [groupByKey]
  | cons b rest ih =>
    intro hne huni hnd
    obtain ⟨k, B⟩ := b
    cases hB : B with
    | nil => exact absurd (hB ▸ rfl) (hne (k, B) (List.mem_cons_self _ _))
    | cons e B2 =>
      subst hB
      have hke : eventKey e = k :=
        huni (k, e :: B2) (List.mem_cons_self _ _) e (List.mem_cons_self _ _)
      have hB2 : ∀ x ∈ B2, eventKey x = k := fun x hx =>
        huni (k, e :: B2) (List.mem_cons_self _ _) x (List.mem_cons_of_mem _ hx)
      rw [List.map_cons, List.nodup_cons] at hnd
      have hflat : ∀ x ∈ rest.flatMap (fun b => b.2), eventKey x ≠ k := by
        intro x hx hxk
        obtain ⟨b2, hb2, hxb2⟩ := List.mem_flatMap.mp hx
        have hxk2 : eventKey x = b2.1 := huni b2 (List.mem_cons_of_mem _ hb2) x hxb2
        apply hnd.1
        rw [← hxk, hxk2]
        exact List.mem_map.mpr ⟨b2, hb2, rfl⟩
      rw [List.flatMap_cons, List.cons_append]
      simp only [groupByKey]
      have hf1 : List.filter (fun x => decide (eventKey x = eventKey e))
          (B2 ++ rest.flatMap (fun b => b.2)) = B2 := by
        rw [List.filter_append]
        rw [List.filter_eq_self.mpr (fun a ha => by simp [hB2 a ha, hke])]
        rw [List.filter_eq_nil_iff.mpr (fun a ha => by
          simp only [decide_eq_true_eq, hke]
          exact hflat a ha)]
        simp
      have hf2 : List.filter (fun x => !decide (eventKey x = eventKey e))
          (B2 ++ rest.flatMap (fun b => b.2)) = rest.flatMap (fun b => b.2) := by
        rw [List.filter_append]
        rw [List.filter_eq_nil_iff.mpr (fun a ha => by simp [hB2 a ha, hke])]
        rw [List.filter_eq_self.mpr (fun a ha => by
          simp only [Bool.not_eq_true', decide_eq_false_iff_not, hke]
          exact hflat a ha)]
        simp
      rw [hf1, hf2, hke]
      rw [ih (fun b2 hb2 => hne b2 (List.mem_cons_of_mem _ hb2))
        (fun b2 hb2 => huni b2 (List.mem_cons_of_mem _ hb2)) hnd.2]

/-- Reduction of a group is pairwise unmergeable. -/
theorem reduceGroup_chain (maxSize : Nat) (l : List PostHogEvent) :
    List.Chain' (fun a b => canMerge maxSize a b = false) (reduceGroup maxSize l) := by
  cases l with
  | nil => simp [reduceGroup]
  | cons e rest => exact reduceAux_chain maxSize rest e

/-- Group reduction preserves any merge-closed property. -/
theorem reduceGroup_all (maxSize : Nat) (P : PostHogEvent → Prop)
    (hP : ∀ a e, P a → P e → P (mergeEvents a e)) (l : List PostHogEvent)
    (hall : ∀ x ∈ l, P x) : ∀ y ∈ reduceGroup maxSize l, P y := by
  cases l with
  | nil => intro y hy; exact absurd hy (by simp [reduceGroup])
  | cons e rest =>
    exact reduceAux_all maxSize P hP rest e (hall e (List.mem_cons_self _ _))
      (fun x hx => hall x (List.mem_cons_of_mem _ hx))

/-- Reducing a nonempty group yields a nonempty list. -/
theorem reduceGroup_ne_nil (maxSize : Nat) (e : PostHogEvent) (l : List PostHogEvent) :
    reduceGroup maxSize (e :: l) ≠ [] := by
  unfold reduceGroup
  exact reduceAux_ne_nil maxSize l e

/-- The pipeline output is the flattening of its per-key blocks. -/
theorem chunkBlocks_flat (maxSize : Nat) :
    ∀ (gs : List ((Option String × Option String) × List PostHogEvent)) (n : Nat),
      chunkAll maxSize n (gs.flatMap (fun g => reduceGroup maxSize g.2)) =
        (chunkBlocks maxSize n gs).flatMap (fun b => b.2) := by
  intro gs
  induction gs with
  | nil => intro n; simp [chunkAll, chunkBlocks]
  | cons g rest ih =>
    intro n
    obtain ⟨k, gl⟩ := g
    rw [List.flatMap_cons]
    rw [chunkAll_append]
    rw [ih (n + (reduceGroup maxSize gl).length)]
    rw [show chunkBlocks maxSize n ((k, gl) :: rest) =
        (k, chunkAll maxSize n (reduceGroup maxSize gl)) ::
          chunkBlocks maxSize (n + (reduceGroup maxSize gl).length) rest from by
      simp [chunkBlocks]]
    rw [List.flatMap_cons]

/-- Chunking blocks keeps their keys. -/
theorem chunkBlocks_keys (maxSize : Nat) :
    ∀ (gs : List ((Option String × Option String) × List PostHogEvent)) (n : Nat),
      (chunkBlocks maxSize n gs).map Prod.fst = gs.map Prod.fst := by
  intro gs
  induction gs with
  | nil => intro n; simp [chunkBlocks]
  | cons g rest ih =>
    intro n
    obtain ⟨k, gl⟩ := g
    rw [show chunkBlocks maxSize n ((k, gl) :: rest) =
        (k, chunkAll maxSize n (reduceGroup maxSize gl)) ::
          chunkBlocks maxSize (n + (reduceGroup maxSize gl).length) rest from by
      simp [chunkBlocks]]
    rw [List.map_cons, List.map_cons, ih]

/-- Each chunked block is nonempty, uniform in its key, and a fixed point of
the reducer. -/
theorem chunkBlocks_sound (maxSize : Nat) :
    ∀ (gs : List ((Option String × Option String) × List PostHogEvent)) (n : Nat),
      (∀ g ∈ gs, g.2 ≠ [] ∧ ∀ e ∈ g.2, eventKey e = g.1) →
      ∀ b ∈ chunkBlocks maxSize n gs,
        b.2 ≠ [] ∧ (∀ e ∈ b.2, eventKey e = b.1) ∧
        reduceGroup maxSize b.2 = b.2 := by
  intro gs
  induction gs with
  | nil => intro n _ b hb; exact absurd hb (by simp [chunkBlocks])
  | cons g rest ih =>
    intro n hgs b hb
    obtain ⟨k, gl⟩ := g
    rw [show chunkBlocks maxSize n ((k, gl) :: rest) =
        (k, chunkAll maxSize n (reduceGroup maxSize gl)) ::
          chunkBlocks maxSize (n + (reduceGroup maxSize gl).length) rest from by
      simp [chunkBlocks]] at hb
    rcases List.mem_cons.mp hb with rfl | hb
    · obtain ⟨hgne, hguni⟩ := hgs (k, gl) (List.mem_cons_self _ _)
      cases hgl : gl with
      | nil => exact absurd (hgl ▸ rfl) hgne
      | cons e0 gl2 =>
        subst hgl
        refine ⟨?_, ?_, ?_⟩
        · cases hrg : reduceGroup maxSize (e0 :: gl2) with
          | nil => exact absurd hrg (reduceGroup_ne_nil maxSize e0 gl2)
          | cons z zs =>
            show chunkAll maxSize n (z :: zs) ≠ []
            exact chunkAll_ne_nil maxSize n z zs
        · intro y hy
          obtain ⟨e2, he2, j, hj⟩ := mem_chunkAll maxSize _ n y hy
          have hkey2 : eventKey e2 = k := by
            refine reduceGroup_all maxSize (fun x => eventKey x = k) ?_ _ ?_ e2 he2
            · intro a e hpa _; rw [(mergeEvents_fields a e).2]; exact hpa
            · exact hguni
          rw [(expandEvent_fields maxSize j e2 y hj).2, hkey2]
        · apply reduceGroup_of_chain
          exact chain_chunkAll maxSize _ n (reduceGroup_chain maxSize (e0 :: gl2))
    · exact ih _ (fun g2 hg2 => hgs g2 (List.mem_cons_of_mem _ hg2)) b hb

/-- Compressing passes a non-plain event through unchanged. -/
theorem compressEvent_id (e : PostHogEvent) (h : isPlainShape e = false) :
    compressEvent e = e := by
  unfold compressEvent
  split
  · rename_i p heq
    rw [show isPlainShape e = true from by simp [isPlainShape, heq]] at h
    exact absurd h (by simp)
  · rfl

/-- Compressing preserves the event name and key. -/
theorem compressEvent_fields (e : PostHogEvent) :
    (compressEvent e).event = e.event ∧ eventKey (compressEvent e) = eventKey e := by
  unfold compressEvent
  split
  · exact ⟨rfl, rfl⟩
  · exact ⟨rfl, rfl⟩

/-- A compressed event is never in plain shape. -/
theorem compressEvent_not_plain (e : PostHogEvent) :
    isPlainShape (compressEvent e) = false := by
  unfold compressEvent
  split
  · rfl
  · rename_i hne
    unfold isPlainShape
    cases hsd : e.snapshot_data with
    | none => rfl
    | some sd =>
      cases sd with
      | plain p => exact absurd (hne p hsd) (by simp)
      | compressed c => rfl
      | chunk ch => rfl

/-- Merging never produces a plain event when the accumulator is not plain. -/
theorem mergeEvents_not_plain (a e : PostHogEvent) (ha : isPlainShape a = false) :
    isPlainShape (mergeEvents a e) = false := by
  unfold mergeEvents
  split
  · rfl
  · exact ha

/-- Compressing a batch of non-plain events is the identity. -/
theorem compressAll_id (l : List PostHogEvent) (h : ∀ e ∈ l, isPlainShape e = false) :
    compress_replay_events l = l := by
  unfold compress_replay_events
  induction l with
  | nil => rfl
  | cons e rest ih =>
    rw [List.map_cons, compressEvent_id e (h e (List.mem_cons_self _ _)),
      ih (fun x hx => h x (List.mem_cons_of_mem _ hx))]

/-- No pipeline output is in plain shape. -/
theorem flowReplay_not_plain (maxSize : Nat) (l : List PostHogEvent) :
    ∀ y ∈ flowReplay maxSize l, isPlainShape y = false := by
  intro y hy
  unfold flowReplay chunk_replay_events_by_window at hy
  obtain ⟨e2, he2, j, hj⟩ := mem_chunkAll maxSize _ 0 y hy
  have hnp2 : isPlainShape e2 = false := by
    unfold reduce_replay_events_by_window at he2
    obtain ⟨g, hg, hge2⟩ := List.mem_flatMap.mp he2
    refine reduceGroup_all maxSize (fun x => isPlainShape x = false) ?_ g.2 ?_ e2 hge2
    · intro a e hpa _; exact mergeEvents_not_plain a e hpa
    · intro x hx
      have hxin := (groupByKey_sound _ g hg).2.2 x hx
      obtain ⟨x0, _, rfl⟩ := List.mem_map.mp hxin
      exact compressEvent_not_plain x0
  rcases expandEvent_shape maxSize j e2 y hj with rfl | hsh
  · exact hnp2
  · exact hsh.2

/-- Pipeline outputs keep the input event name. -/
theorem flowReplay_event (maxSize : Nat) (l : List PostHogEvent) (s : String)
    (h : ∀ e ∈ l, e.event = s) :
    ∀ y ∈ flowReplay maxSize l, y.event = s := by
  intro y hy
  unfold flowReplay chunk_replay_events_by_window at hy
  obtain ⟨e2, he2, j, hj⟩ := mem_chunkAll maxSize _ 0 y hy
  have hev2 : e2.event = s := by
    unfold reduce_replay_events_by_window at he2
    obtain ⟨g, hg, hge2⟩ := List.mem_flatMap.mp he2
    refine reduceGroup_all maxSize (fun x => x.event = s) ?_ g.2 ?_ e2 hge2
    · intro a e hpa _; rw [(mergeEvents_fields a e).1]; exact hpa
    · intro x hx
      have hxin := (groupByKey_sound _ g hg).2.2 x hx
      obtain ⟨x0, hx0, rfl⟩ := List.mem_map.mp hxin
      rw [(compressEvent_fields x0).1]
      exact h x0 hx0
  rw [(expandEvent_fields maxSize j e2 y hj).1, hev2]

/-- Compressed pipeline outputs always fit the size budget. -/
theorem flowReplay_small (maxSize : Nat) (l : List PostHogEvent) :
    ∀ y ∈ flowReplay maxSize l, isCompressedShape y = true →
      byte_size_dict y ≤ maxSize := by
  intro y hy hc
  unfold flowReplay chunk_replay_events_by_window at hy
  obtain ⟨e2, _, j, hj⟩ := mem_chunkAll maxSize _ 0 y hy
  exact expandEvent_small maxSize j e2 y hj hc

/-- The replay half of the pipeline is idempotent. -/
theorem flowReplay_id (maxSize : Nat) (l : List PostHogEvent) :
    flowReplay maxSize (flowReplay maxSize l) = flowReplay maxSize l := by
  have h1 : compress_replay_events (flowReplay maxSize l) = flowReplay maxSize l :=
    compressAll_id _ (flowReplay_not_plain maxSize l)
  have hform : flowReplay maxSize l =
      (chunkBlocks maxSize 0 (groupByKey (compress_replay_events l))).flatMap
        (fun b => b.2) := by
    unfold flowReplay chunk_replay_events_by_window reduce_replay_events_by_window
    exact chunkBlocks_flat maxSize (groupByKey (compress_replay_events l)) 0
  have hsound := chunkBlocks_sound maxSize (groupByKey (compress_replay_events l)) 0
    (fun g hg => ⟨(groupByKey_sound _ g hg).1, (groupByKey_sound _ g hg).2.1⟩)
  have h2 : reduce_replay_events_by_window (flowReplay maxSize l) maxSize =
      flowReplay maxSize l := by
    rw [hform]
    unfold reduce_replay_events_by_window
    rw [groupByKey_flat_blocks _ (fun b hb => (hsound b hb).1)
      (fun b hb => (hsound b hb).2.1)
      (by rw [chunkBlocks_keys]; exact groupByKey_keys_nodup _)]
    exact flatMap_congr2 _ _ _ (fun b hb => (hsound b hb).2.2)
  have h3 : chunk_replay_events_by_window (flowReplay maxSize l) maxSize =
      flowReplay maxSize l := by
    unfold chunk_replay_events_by_window
    apply chunkAll_eq_self
    intro e he k
    apply expandEvent_pass
    intro hcomp
    exact flowReplay_small maxSize l e he hcomp
  show chunk_replay_events_by_window
    (reduce_replay_events_by_window
      (compress_replay_events (flowReplay maxSize l)) maxSize) maxSize =
    flowReplay maxSize l
  rw [h1, h2, h3]

/-- C2: the full capture pipeline (split into replay and other events,
compress, reduce, chunk, reappend the others) is idempotent on every input
batch: already-compressed and already-chunked payloads are recognized by
shape and passed through unchanged, so running the pipeline over its own
output equals running it once. -/
theorem c2_pipeline_idempotent (maxSize : Nat) (events : List PostHogEvent) :
    mock_capture_flow maxSize (mock_capture_flow maxSize events) =
      mock_capture_flow maxSize events := by
  have hr : ∀ e ∈ flowReplay maxSize (split_replay_events events).1,
      e.event = "$snapshot" := by
    apply flowReplay_event
    intro x hx
    unfold split_replay_events at hx
    have h2 := List.mem_filter.mp hx
    simpa using h2.2
  have ho : ∀ e ∈ (split_replay_events events).2, (e.event == "$snapshot") = false := by
    intro x hx
    unfold split_replay_events at hx
    have h2 := List.mem_filter.mp hx
    simpa using h2.2
  have hsplit : split_replay_events
      (flowReplay maxSize (split_replay_events events).1 ++ (split_replay_events events).2)
      = (flowReplay maxSize (split_replay_events events).1,
        (split_replay_events events).2) := by
    show ((flowReplay maxSize (split_replay_events events).1 ++
            (split_replay_events events).2).filter (fun e => e.event == "$snapshot"),
          (flowReplay maxSize (split_replay_events events).1 ++
            (split_replay_events events).2).filter (fun e => !(e.event == "$snapshot"))) =
      (flowReplay maxSize (split_replay_events events).1, (split_replay_events events).2)
    rw [List.filter_append, List.filter_append]
    rw [List.filter_eq_self.mpr (fun a ha => by simp [hr a ha])]
    rw [List.filter_eq_nil_iff.mpr (fun a ha => by simp [ho a ha])]
    rw [List.filter_eq_nil_iff.mpr (fun a ha => by simp [hr a ha])]
    rw [List.filter_eq_self.mpr (fun a ha => by simp [ho a ha])]
    simp
  show mock_capture_flow maxSize
      (flowReplay maxSize (split_replay_events events).1 ++ (split_replay_events events).2) =
    mock_capture_flow maxSize events
  unfold mock_capture_flow
  rw [hsplit]
  show flowReplay maxSize (flowReplay maxSize (split_replay_events events).1) ++
      (split_replay_events events).2 =
    flowReplay maxSize (split_replay_events events).1 ++ (split_replay_events events).2
  rw [flowReplay_id]

/-- Flattening the slices of greedy packing recovers the accumulator plus the
remaining items. -/
theorem packAux_flatMap (maxSize : Nat) :
    ∀ (l : List CompressedItem) (cur : List CompressedItem) (curSize : Nat),
      (packAux maxSize cur curSize l).flatMap id = cur ++ l := by
  intro l
  induction l with
  | nil => intro cur curSize; simp [packAux]
  | cons i rest ih =>
    intro cur curSize
    unfold packAux
    by_cases h : 50 + curSize + compressedItemSize i ≤ maxSize
    · rw [if_pos h, ih]
      simp
    · rw [if_neg h]
      rw [List.flatMap_cons, ih]
      simp

/-- Flattening the packing slices recovers the item list. -/
theorem packItems_flatMap (maxSize : Nat) :
    ∀ items : List CompressedItem, (packItems maxSize items).flatMap id = items := by
  intro items
  cases items with
  | nil => simp [packItems]
  | cons i rest =>
    unfold packItems
    rw [packAux_flatMap]
    simp

/-- Enumeration indices form a contiguous range. -/
theorem enumFrom_map_fst {α : Type} :
    ∀ (l : List α) (i : Nat), (enumFrom i l).map Prod.fst = List.range' i l.length := by
  intro l
  induction l with
  | nil => intro i; rfl
  | cons x rest ih =>
    intro i
    rw [show enumFrom i (x :: rest) = (i, x) :: enumFrom (i + 1) rest from rfl]
    rw [List.map_cons, ih (i + 1), List.length_cons, List.range'_succ]

/-- Enumeration preserves the underlying list. -/
theorem enumFrom_map_snd {α : Type} :
    ∀ (l : List α) (i : Nat), (enumFrom i l).map Prod.snd = l := by
  intro l
  induction l with
  | nil => intro i; rfl
  | cons x rest ih =>
    intro i
    rw [show enumFrom i (x :: rest) = (i, x) :: enumFrom (i + 1) rest from rfl]
    rw [List.map_cons, ih (i + 1)]

/-- The chunk indices of a split are exactly 0..slices-1 in order. -/
theorem chunkRecordsOf_map_index (c : CompressedRecord) (cid : String)
    (slices : List (List CompressedItem)) :
    (chunkRecordsOf c cid slices).map (fun r => r.chunk_index) =
      List.range' 0 slices.length := by
  unfold chunkRecordsOf
  rw [List.map_map]
  exact enumFrom_map_fst slices 0

/-- The data slices of a split's chunk records are the packing slices. -/
theorem chunkRecordsOf_map_data (c : CompressedRecord) (cid : String)
    (slices : List (List CompressedItem)) :
    (chunkRecordsOf c cid slices).map (fun r => r.data) = slices := by
  unfold chunkRecordsOf
  rw [List.map_map]
  exact enumFrom_map_snd slices 0

/-- Enumeration preserves length. -/
theorem enumFrom_length {α : Type} :
    ∀ (l : List α) (i : Nat), (enumFrom i l).length = l.length := by
  intro l
  induction l with
  | nil => intro i; rfl
  | cons x rest ih =>
    intro i
    rw [show enumFrom i (x :: rest) = (i, x) :: enumFrom (i + 1) rest from rfl]
    rw [List.length_cons, List.length_cons, ih (i + 1)]

/-- A split has as many chunk records as packing slices. -/
theorem chunkRecordsOf_length (c : CompressedRecord) (cid : String)
    (slices : List (List CompressedItem)) :
    (chunkRecordsOf c cid slices).length = slices.length := by
  unfold chunkRecordsOf
  rw [List.length_map, enumFrom_length]

/-- Every chunk record of a split carries the shared id and total count. -/
theorem chunkRecordsOf_fields (c : CompressedRecord) (cid : String)
    (slices : List (List CompressedItem)) :
    ∀ r ∈ chunkRecordsOf c cid slices,
      r.chunk_id = cid ∧ r.chunk_count = slices.length := by
  intro r hr
  unfold chunkRecordsOf at hr
  rw [List.mem_map] at hr
  obtain ⟨p, _, rfl⟩ := hr
  exact ⟨rfl, rfl⟩

/-- Concatenating per-record data after a map commutes with mapping over the
concatenation. -/
theorem flatMap_map_out {α β γ : Type} (f : α → List β) (g : β → γ) :
    ∀ l : List α, l.flatMap (fun x => (f x).map g) = (l.flatMap f).map g := by
  intro l
  induction l with
  | nil => rfl
  | cons x rest ih =>
    rw [List.flatMap_cons, List.flatMap_cons, List.map_append, ih]

/-- The concatenated data of a split's chunk records is the flattened slice
list. -/
theorem chunkRecordsOf_flatMap_data (c : CompressedRecord) (cid : String)
    (slices : List (List CompressedItem)) :
    (chunkRecordsOf c cid slices).flatMap (fun r => r.data) = slices.flatMap id := by
  have h1 : ∀ (sl : List (List CompressedItem)) (i : Nat),
      ((sl.map (fun s => s)).flatMap id : List CompressedItem) = sl.flatMap id := by
    intro sl i; rw [List.map_id']
  rw [show (chunkRecordsOf c cid slices).flatMap (fun r => r.data) =
      ((chunkRecordsOf c cid slices).map (fun r => r.data)).flatMap id from by
    rw [List.flatMap_map]; rfl]
  rw [chunkRecordsOf_map_data]

/-- Deduplication by index is the identity on index-distinct groups. -/
theorem dedupByIndex_of_nodup :
    ∀ l : List ChunkRecord, (l.map (fun r => r.chunk_index)).Nodup →
      dedupByIndex l = l := by
  intro l
  induction l with
  | nil => intro _; simp [dedupByIndex]
  | cons c rest ih =>
    intro h
    rw [List.map_cons, List.nodup_cons] at h
    simp only [dedupByIndex]
    rw [List.filter_eq_self.mpr, ih h.2]
    intro a ha
    simp only [Bool.not_eq_eq_eq_not, Bool.not_true, decide_eq_false_iff_not]
    intro hax
    exact h.1 (hax ▸ List.mem_map_of_mem (fun r => r.chunk_index) ha)

/-- Inserting below the sorted head keeps the list intact. -/
theorem insertSorted_cons_of_not_lt {α : Type} (lt : α → α → Bool) (x y : α)
    (ys : List α) (h : lt y x = false) :
    insertSorted lt x (y :: ys) = x :: y :: ys := by
  unfold insertSorted
  rw [h]
  simp

/-- Stable sorting an already-sorted list is the identity. -/
theorem stableSort_id_of_chain {α : Type} (lt : α → α → Bool) :
    ∀ l : List α, l.Chain' (fun a b => lt b a = false) → stableSort lt l = l := by
  intro l
  induction l with
  | nil => intro _; rfl
  | cons x rest ih =>
    intro h
    rw [List.chain'_cons'] at h
    rw [show stableSort lt (x :: rest) = insertSorted lt x (stableSort lt rest) from rfl]
    rw [ih h.2]
    cases rest with
    | nil => rfl
    | cons y ys => exact insertSorted_cons_of_not_lt lt x y ys (h.1 y rfl)

/-- Decoding a nonempty group whose indices are exactly 0..n-1 in order (with
matching counts) concatenates the chunk data and decompresses every item. -/
theorem decodeGroup_canonical (recs : List ChunkRecord)
    (hidx : recs.map (fun r => r.chunk_index) = List.range' 0 recs.length)
    (hcnt : ∀ r ∈ recs, r.chunk_count = recs.length) :
    recs ≠ [] →
    decodeGroup recs = some ((recs.flatMap (fun r => r.data)).map decompressItem) := by
  intro hne
  cases recs with
  | nil => exact absurd rfl hne
  | cons c0 rest =>
    have hpw : (c0 :: rest).Pairwise (fun a b => a.chunk_index < b.chunk_index) := by
      have h1 : ((c0 :: rest).map (fun r => r.chunk_index)).Pairwise (· < ·) := by
        rw [hidx]
        exact List.pairwise_lt_range' _ _ 1 Nat.one_pos
      exact (List.pairwise_map.mp h1)
    have hnd : ((c0 :: rest).map (fun r => r.chunk_index)).Nodup := by
      rw [hidx]
      exact List.nodup_range' _ _ 1 Nat.one_pos
    have hdedup : dedupByIndex (c0 :: rest) = c0 :: rest := dedupByIndex_of_nodup _ hnd
    have hbound : ∀ r ∈ c0 :: rest, r.chunk_index < (c0 :: rest).length := by
      intro r hr
      have h2 : r.chunk_index ∈ (c0 :: rest).map (fun r => r.chunk_index) :=
        List.mem_map_of_mem _ hr
      rw [hidx] at h2
      have h3 := List.mem_range'_1.mp h2
      omega
    have hcount0 : c0.chunk_count = (c0 :: rest).length :=
      hcnt c0 (List.mem_cons_self _ _)
    have hcover : (List.range c0.chunk_count).all
        (fun i => (dedupByIndex (c0 :: rest)).any
          (fun c => decide (c.chunk_index = i))) = true := by
      rw [hdedup, List.all_eq_true]
      intro i hi
      rw [List.mem_range, hcount0] at hi
      have h2 : i ∈ (c0 :: rest).map (fun r => r.chunk_index) := by
        rw [hidx]
        exact List.mem_range'_1.mpr (by omega)
      obtain ⟨r, hr, hri⟩ := List.mem_map.mp h2
      rw [List.any_eq_true]
      exact ⟨r, hr, by simp [hri]⟩
    have hsort : stableSort (fun a b => decide (a.chunk_index < b.chunk_index))
        (dedupByIndex (c0 :: rest)) = c0 :: rest := by
      rw [hdedup]
      apply stableSort_id_of_chain
      apply List.Chain'.imp ?_ hpw.chain'
      intro a b hab
      simp only [decide_eq_false_iff_not]
      omega
    have hfilter : (c0 :: rest).filter
        (fun c => decide (c.chunk_index < c0.chunk_count)) = c0 :: rest := by
      apply List.filter_eq_self.mpr
      intro r hr
      simp only [decide_eq_true_eq]
      rw [hcount0]
      exact hbound r hr
    show decodeGroup (c0 :: rest) = _
    unfold decodeGroup
    simp only
    rw [if_pos hcover, hsort, hfilter]
    rw [show (c0 :: rest).flatMap (fun ch => ch.data.map decompressItem) =
        ((c0 :: rest).flatMap (fun ch => ch.data)).map decompressItem from
      flatMap_map_out _ _ _]

/-- Chunk collection distributes over concatenation. -/
theorem collectChunks_append (g : String) (a b : List SnapshotDataTaggedWithWindowId) :
    collectChunks g (a ++ b) = collectChunks g a ++ collectChunks g b := by
  unfold collectChunks
  rw [List.filterMap_append]

/-- A list holding no chunks of group g collects nothing for g. -/
theorem collectChunks_eq_nil (g : String) (l : List SnapshotDataTaggedWithWindowId)
    (h : ∀ t ∈ l, isChunkOf g t = false) : collectChunks g l = [] := by
  unfold collectChunks
  rw [List.filterMap_eq_nil_iff]
  intro t ht
  cases hsd : t.snapshot_data with
  | plain p => rfl
  | compressed c => rfl
  | chunk ch =>
    have h3 : ¬ (ch.chunk_id = g) := by
      have h2 := h t ht
      simp only [isChunkOf, hsd] at h2
      simpa using h2
    show (if ch.chunk_id = g then some ch else none) = none
    rw [if_neg h3]

/-- Chunk removal distributes over concatenation. -/
theorem removeChunks_append (g : String) (a b : List SnapshotDataTaggedWithWindowId) :
    removeChunks g (a ++ b) = removeChunks g a ++ removeChunks g b := by
  unfold removeChunks
  rw [List.filter_append]

/-- Removing an absent group's chunks is the identity. -/
theorem removeChunks_eq_self (g : String) (l : List SnapshotDataTaggedWithWindowId)
    (h : ∀ t ∈ l, isChunkOf g t = false) : removeChunks g l = l := by
  unfold removeChunks
  apply List.filter_eq_self.mpr
  intro t ht
  rw [h t ht]
  rfl

/-- A compressed head becomes one whole unit before the rest. -/
theorem collectUnits_whole_cons (w : Option String) (c : CompressedRecord)
    (T : List SnapshotDataTaggedWithWindowId) :
    collectUnits (⟨w, .compressed c⟩ :: T) = .whole w c :: collectUnits T := by
  simp [collectUnits]

/-- A complete fresh chunk block at the head collects into one group unit,
leaving the remainder untouched. -/
theorem collectUnits_group_block (w : Option String) (g : String)
    (cs : List ChunkRecord) (T : List SnapshotDataTaggedWithWindowId)
    (hne : cs ≠ []) (hid : ∀ c ∈ cs, c.chunk_id = g)
    (hT : ∀ t ∈ T, isChunkOf g t = false) :
    collectUnits (cs.map (tagChunk w) ++ T) = .group w g cs :: collectUnits T := by
  cases cs with
  | nil => exact absurd rfl hne
  | cons c rest =>
    have hcg : c.chunk_id = g := hid c (List.mem_cons_self _ _)
    have hrest : rest.all (fun x => decide (x.chunk_id = g)) = true := by
      rw [List.all_eq_true]
      intro x hx
      simp [hid x (List.mem_cons_of_mem _ hx)]
    rw [List.map_cons, List.cons_append]
    show collectUnits (⟨w, .chunk c⟩ :: (rest.map (tagChunk w) ++ T)) = _
    simp only [collectUnits]
    rw [collectChunks_append, removeChunks_append]
    rw [collectChunks_map_group w c.chunk_id rest (by rw [hcg]; exact hrest)]
    rw [removeChunks_map_group w c.chunk_id rest (by rw [hcg]; exact hrest)]
    rw [hcg]
    rw [collectChunks_eq_nil g T hT, removeChunks_eq_self g T hT]
    simp

/-- Window tagging distributes over concatenation. -/
theorem tagWithWindow_append (a b : List PostHogEvent) :
    tagWithWindow (a ++ b) = tagWithWindow a ++ tagWithWindow b := by
  unfold tagWithWindow
  rw [List.filterMap_append]

/-- Tagging an event that carries a payload produces one tagged payload. -/
theorem tagWithWindow_cons_some (e : PostHogEvent) (sd : SnapshotData)
    (h : e.snapshot_data = some sd) (T : List PostHogEvent) :
    tagWithWindow (e :: T) = ⟨e.window_id, sd⟩ :: tagWithWindow T := by
  unfold tagWithWindow
  rw [List.filterMap_cons, h]
  rfl

/-- Tagging the chunk events of one split yields the split's chunk records
tagged with the original event's window. -/
theorem tagWithWindow_mkChunkEvents (e : PostHogEvent) (c : CompressedRecord)
    (cid : String) (slices : List (List CompressedItem)) :
    tagWithWindow (mkChunkEvents e c cid slices) =
      (chunkRecordsOf c cid slices).map (tagChunk e.window_id) := by
  unfold tagWithWindow mkChunkEvents chunkRecordsOf
  rw [List.filterMap_map, List.map_map]
  induction enumFrom 0 slices with
  | nil => rfl
  | cons p rest ih =>
    rw [List.filterMap_cons, List.map_cons]
    rw [show ((fun e2 : PostHogEvent => e2.snapshot_data.map
        (fun sd => (⟨e2.window_id, sd⟩ : SnapshotDataTaggedWithWindowId))) ∘
        (fun p2 : Nat × List CompressedItem => { e with snapshot_data := some (.chunk
          ⟨cid, p2.1, slices.length, p2.2, c.compression, c.has_full_snapshot⟩) })) p =
      some ⟨e.window_id, .chunk
        ⟨cid, p.1, slices.length, p.2, c.compression, c.has_full_snapshot⟩⟩ from rfl]
    rw [ih]
    rfl

/-- Every tagged payload comes from an input event with that payload and
window. -/
theorem tagWithWindow_mem (l : List PostHogEvent) :
    ∀ t ∈ tagWithWindow l,
      ∃ e ∈ l, e.snapshot_data = some t.snapshot_data ∧ e.window_id = t.window_id := by
  intro t ht
  unfold tagWithWindow at ht
  obtain ⟨e, he, hsome⟩ := List.mem_filterMap.mp ht
  cases hsd : e.snapshot_data with
  | none => rw [hsd] at hsome; exact absurd hsome (by simp)
  | some sd =>
    rw [hsd] at hsome
    simp only [Option.map_some'] at hsome
    injection hsome with h4
    subst h4
    exact ⟨e, he, hsd, rfl⟩

/-- The chunk-id generator is injective. -/
theorem chunkIdFor_inj (m n : Nat) (h : chunkIdFor m = chunkIdFor n) : m = n := by
  unfold chunkIdFor at h
  have h2 : List.replicate m 'c' = List.replicate n 'c' := by
    injection h
  have h3 := congrArg List.length h2
  simpa using h3

/-- Chunk events of one split all carry the split's chunk id. -/
theorem mkChunkEvents_chunk_id (e : PostHogEvent) (c : CompressedRecord)
    (cid : String) (slices : List (List CompressedItem)) :
    ∀ y ∈ mkChunkEvents e c cid slices, ∀ ch,
      y.snapshot_data = some (.chunk ch) → ch.chunk_id = cid := by
  intro y hy ch hch
  unfold mkChunkEvents at hy
  rw [List.mem_map] at hy
  obtain ⟨p, _, rfl⟩ := hy
  simp only at hch
  injection hch with h1
  injection h1 with h2
  rw [← h2]

/-- Every chunk id produced by chunking compressed events from counter n on is
a generated id with counter at least n. -/
theorem chunkAll_chunk_ids (maxSize : Nat) :
    ∀ (l : List PostHogEvent) (n : Nat),
      (∀ e ∈ l, isCompressedShape e = true) →
      ∀ y ∈ chunkAll maxSize n l, ∀ ch, y.snapshot_data = some (.chunk ch) →
        ∃ k, n ≤ k ∧ ch.chunk_id = chunkIdFor k := by
  intro l
  induction l with
  | nil => intro n _ y hy; exact absurd hy (by simp [chunkAll])
  | cons e rest ih =>
    intro n h y hy ch hch
    rw [show chunkAll maxSize n (e :: rest) =
        expandEvent maxSize n e ++ chunkAll maxSize (n + 1) rest from by
      simp [chunkAll]] at hy
    rcases List.mem_append.mp hy with hy | hy
    · have hce := h e (List.mem_cons_self _ _)
      unfold isCompressedShape at hce
      cases hsd : e.snapshot_data with
      | none => rw [hsd] at hce; exact absurd hce (by simp)
      | some sd =>
        cases sd with
        | plain p => rw [hsd] at hce; exact absurd hce (by simp)
        | chunk ch2 => rw [hsd] at hce; exact absurd hce (by simp)
        | compressed c =>
          unfold expandEvent at hy
          rw [hsd] at hy
          simp only at hy
          by_cases hsz : byte_size_dict e ≤ maxSize
          · rw [if_pos hsz] at hy
            rw [List.mem_singleton] at hy
            subst hy
            rw [hsd] at hch
            exact absurd hch (by simp)
          · rw [if_neg hsz] at hy
            exact ⟨n, Nat.le_refl n, mkChunkEvents_chunk_id e c _ _ y hy ch hch⟩
    · obtain ⟨k, hk, hid⟩ :=
        ih (n + 1) (fun x hx => h x (List.mem_cons_of_mem _ hx)) y hy ch hch
      exact ⟨k, by omega, hid⟩

/-- The tagged remainder of chunking from a later counter holds no chunk of an
earlier generated id. -/
theorem tag_chunkAll_fresh (maxSize : Nat) (l : List PostHogEvent) (n k : Nat)
    (hkn : k < n) (h : ∀ e ∈ l, isCompressedShape e = true) :
    ∀ t ∈ tagWithWindow (chunkAll maxSize n l), isChunkOf (chunkIdFor k) t = false := by
  intro t ht
  obtain ⟨e, he, hsd, hw⟩ := tagWithWindow_mem _ t ht
  unfold isChunkOf
  cases hts : t.snapshot_data with
  | plain p => rfl
  | compressed c => rfl
  | chunk ch =>
    rw [hts] at hsd
    obtain ⟨j, hj, hid⟩ := chunkAll_chunk_ids maxSize l n h e he ch hsd
    simp only [decide_eq_false_iff_not]
    intro hcontra
    rw [hid] at hcontra
    have h4 := chunkIdFor_inj j k hcontra
    omega

/-- Decoding the collected units of the tagged chunking output recovers, per
compressed input event in order, its window and its decompressed data items. -/
theorem decode_chunkAll (maxSize : Nat) :
    ∀ (l : List PostHogEvent) (n : Nat),
      (∀ e ∈ l, isCompressedShape e = true) →
      (collectUnits (tagWithWindow (chunkAll maxSize n l))).flatMap decodeUnit =
        l.map (fun e => (e.window_id, (eventItems e).map decompressItem)) := by
  intro l
  induction l with
  | nil =>
    intro n _
    rw [show chunkAll maxSize n ([] : List PostHogEvent) = [] from by simp [chunkAll]]
    simp [tagWithWindow, collectUnits]
  | cons e rest ih =>
    intro n h
    have hce := h e (List.mem_cons_self _ _)
    have hrest : ∀ x ∈ rest, isCompressedShape x = true :=
      fun x hx => h x (List.mem_cons_of_mem _ hx)
    unfold isCompressedShape at hce
    cases hsd : e.snapshot_data with
    | none => rw [hsd] at hce; exact absurd hce (by simp)
    | some sd =>
      cases sd with
      | plain p => rw [hsd] at hce; exact absurd hce (by simp)
      | chunk ch => rw [hsd] at hce; exact absurd hce (by simp)
      | compressed c =>
        have hitems : eventItems e = c.data_items := by
          unfold eventItems; rw [hsd]
        rw [show chunkAll maxSize n (e :: rest) =
            expandEvent maxSize n e ++ chunkAll maxSize (n + 1) rest from by
          simp [chunkAll]]
        rw [tagWithWindow_append, List.map_cons, hitems]
        by_cases hsz : byte_size_dict e ≤ maxSize
        · rw [show expandEvent maxSize n e = [e] from by
            unfold expandEvent; rw [hsd]; exact if_pos hsz]
          rw [tagWithWindow_cons_some e (.compressed c) hsd []]
          rw [show tagWithWindow ([] : List PostHogEvent) = [] from rfl]
          rw [show (⟨e.window_id, .compressed c⟩ :: ([] : List SnapshotDataTaggedWithWindowId)) ++
              tagWithWindow (chunkAll maxSize (n + 1) rest) =
              ⟨e.window_id, .compressed c⟩ :: tagWithWindow (chunkAll maxSize (n + 1) rest)
            from rfl]
          rw [collectUnits_whole_cons, List.flatMap_cons, ih (n + 1) hrest]
          rfl
        · rw [show expandEvent maxSize n e =
              mkChunkEvents e c (chunkIdFor n) (packItems maxSize c.data_items) from by
            unfold expandEvent; rw [hsd]; exact if_neg hsz]
          rw [tagWithWindow_mkChunkEvents]
          have hfresh := tag_chunkAll_fresh maxSize rest (n + 1) n (by omega) hrest
          have hlen0 : (chunkRecordsOf c (chunkIdFor n)
              (packItems maxSize c.data_items)).length =
              (packItems maxSize c.data_items).length := chunkRecordsOf_length _ _ _
          have hne : chunkRecordsOf c (chunkIdFor n)
              (packItems maxSize c.data_items) ≠ [] := by
            intro hnil
            have hl := congrArg List.length hnil
            rw [hlen0] at hl
            exact packItems_ne_nil maxSize c.data_items
              (List.eq_nil_of_length_eq_zero (by simpa using hl))
          rw [collectUnits_group_block e.window_id (chunkIdFor n) _ _ hne
            (fun r hr => (chunkRecordsOf_fields _ _ _ r hr).1) hfresh]
          rw [List.flatMap_cons, ih (n + 1) hrest]
          have hidx : (chunkRecordsOf c (chunkIdFor n)
              (packItems maxSize c.data_items)).map (fun r => r.chunk_index) =
              List.range' 0 (chunkRecordsOf c (chunkIdFor n)
                (packItems maxSize c.data_items)).length := by
            rw [hlen0]
            exact chunkRecordsOf_map_index _ _ _
          have hcnt : ∀ r ∈ chunkRecordsOf c (chunkIdFor n)
              (packItems maxSize c.data_items),
              r.chunk_count = (chunkRecordsOf c (chunkIdFor n)
                (packItems maxSize c.data_items)).length := by
            intro r hr
            rw [hlen0]
            exact (chunkRecordsOf_fields _ _ _ r hr).2
          have hdec := decodeGroup_canonical _ hidx hcnt hne
          have hdata : (chunkRecordsOf c (chunkIdFor n)
              (packItems maxSize c.data_items)).flatMap (fun r => r.data) =
              c.data_items := by
            rw [chunkRecordsOf_flatMap_data, packItems_flatMap]
          simp only [decodeUnit]
          rw [hdec, hdata]
          rfl

/-- A window absent from the map's keys has no data. -/
theorem windowData_nil_of_not_mem (m : List (Option String × List SnapshotData))
    (w : Option String) (h : w ∉ m.map Prod.fst) : windowData m w = [] := by
  induction m with
  | nil => rfl
  | cons p rest ih =>
    obtain ⟨w2, ps⟩ := p
    rw [List.map_cons] at h
    unfold windowData
    rw [if_neg (fun hp => h (by rw [← hp]; exact List.mem_cons_self _ _))]
    exact ih (fun hw => h (List.mem_cons_of_mem _ hw))

/-- Keys after an insertion come from the old keys or the inserted key. -/
theorem mem_keys_addEntry (m : List (Option String × List SnapshotData))
    (w : Option String) (ps : List SnapshotData) :
    ∀ k ∈ (addEntry m w ps).map Prod.fst, k ∈ m.map Prod.fst ∨ k = w := by
  induction m with
  | nil =>
    intro k hk
    rw [show addEntry [] w ps = [(w, ps)] from rfl] at hk
    rcases List.mem_cons.mp hk with h | h
    · exact Or.inr h
    · exact absurd h (by simp)
  | cons p rest ih =>
    intro k hk
    obtain ⟨w2, qs⟩ := p
    unfold addEntry at hk
    by_cases h2 : w2 = w
    · rw [if_pos h2] at hk
      rcases List.mem_cons.mp hk with h | h
      · exact Or.inl (h ▸ List.mem_cons_self _ _)
      · exact Or.inl (List.mem_cons_of_mem _ h)
    · rw [if_neg h2] at hk
      rw [List.map_cons] at hk
      rcases List.mem_cons.mp hk with h | h
      · exact Or.inl (h ▸ List.mem_cons_self _ _)
      · rcases ih k h with h3 | h3
        · exact Or.inl (List.mem_cons_of_mem _ h3)
        · exact Or.inr h3

/-- Insertion preserves distinctness of the keys. -/
theorem addEntry_keys_nodup (m : List (Option String × List SnapshotData))
    (w : Option String) (ps : List SnapshotData)
    (h : (m.map Prod.fst).Nodup) : ((addEntry m w ps).map Prod.fst).Nodup := by
  induction m with
  | nil => simp [addEntry]
  | cons p rest ih =>
    obtain ⟨w2, qs⟩ := p
    rw [List.map_cons, List.nodup_cons] at h
    unfold addEntry
    by_cases h2 : w2 = w
    · rw [if_pos h2, List.map_cons, List.nodup_cons]
      exact ⟨h.1, h.2⟩
    · rw [if_neg h2, List.map_cons, List.nodup_cons]
      refine ⟨?_, ih h.2⟩
      intro hw2
      rcases mem_keys_addEntry rest w ps w2 hw2 with h3 | h3
      · exact h.1 h3
      · exact h2 h3

/-- On a key-distinct map, insertion appends the payloads at the inserted key
and leaves every other window unchanged. -/
theorem windowData_addEntry (m : List (Option String × List SnapshotData))
    (w2 : Option String) (ps : List SnapshotData) (w : Option String)
    (hnd : (m.map Prod.fst).Nodup) :
    windowData (addEntry m w2 ps) w =
      windowData m w ++ (if w2 = w then ps else []) := by
  induction m with
  | nil =>
    rw [show addEntry [] w2 ps = [(w2, ps)] from rfl]
    unfold windowData
    by_cases h2 : w2 = w
    · rw [if_pos h2, if_pos h2]
      simp [windowData]
    · rw [if_neg h2, if_neg h2]
      simp [windowData]
  | cons p rest ih =>
    obtain ⟨w3, qs⟩ := p
    rw [List.map_cons, List.nodup_cons] at hnd
    unfold addEntry
    by_cases h32 : w3 = w2
    · rw [if_pos h32]
      unfold windowData
      by_cases h3w : w3 = w
      · rw [if_pos h3w, if_pos h3w]
        have hw_rest : windowData rest w = [] := by
          apply windowData_nil_of_not_mem
          intro hw
          exact hnd.1 (h3w ▸ hw)
        rw [hw_rest]
        rw [if_pos (h32 ▸ h3w)]
        simp
      · rw [if_neg h3w, if_neg h3w]
        rw [if_neg (h32 ▸ h3w)]
        simp
    · rw [if_neg h32]
      unfold windowData
      by_cases h3w : w3 = w
      · rw [if_pos h3w, if_pos h3w, ih hnd.2]
        rw [List.append_assoc]
      · rw [if_neg h3w, if_neg h3w, ih hnd.2]

/-- Folding contributions into a key-distinct map appends, per window, the
payloads of that window's contributions in order. -/
theorem windowData_foldl (contribs : List (Option String × List SnapshotData)) :
    ∀ (m : List (Option String × List SnapshotData)) (w : Option String),
      (m.map Prod.fst).Nodup →
      windowData (contribs.foldl (fun acc c => addToWindow acc c.1 c.2) m) w =
        windowData m w ++
          (contribs.filter (fun c => decide (c.1 = w))).flatMap (fun c => c.2) := by
  induction contribs with
  | nil =>
    intro m w _
    simp
  | cons c cs ih =>
    intro m w hnd
    rw [List.foldl_cons]
    by_cases hemp : c.2.isEmpty
    · rw [show addToWindow m c.1 c.2 = m from by
        unfold addToWindow; rw [if_pos hemp]]
      rw [ih m w hnd]
      have hc2 : c.2 = [] := by
        cases hc : c.2 with
        | nil => rfl
        | cons x xs => rw [hc] at hemp; simp [List.isEmpty] at hemp
      by_cases hcw : c.1 = w
      · rw [show (c :: cs).filter (fun c => decide (c.1 = w)) =
            c :: cs.filter (fun c => decide (c.1 = w)) from by
          rw [List.filter_cons_of_pos (by simp [hcw])]]
        rw [List.flatMap_cons, hc2]
        rfl
      · rw [List.filter_cons_of_neg (by simp [hcw])]
    · rw [show addToWindow m c.1 c.2 = addEntry m c.1 c.2 from by
        unfold addToWindow; rw [if_neg hemp]]
      rw [ih (addEntry m c.1 c.2) w (addEntry_keys_nodup m c.1 c.2 hnd)]
      rw [windowData_addEntry m c.1 c.2 w hnd]
      by_cases hcw : c.1 = w
      · rw [if_pos hcw]
        rw [List.filter_cons_of_pos (by simp [hcw])]
        rw [List.flatMap_cons, List.append_assoc]
      · rw [if_neg hcw]
        rw [List.filter_cons_of_neg (by simp [hcw])]
        simp

/-- The per-window data of the built map is the concatenation of that window's
contributions. -/
theorem windowData_buildMap (contribs : List (Option String × List SnapshotData))
    (w : Option String) :
    windowData (buildMap contribs) w =
      (contribs.filter (fun c => decide (c.1 = w))).flatMap (fun c => c.2) := by
  unfold buildMap
  rw [windowData_foldl contribs [] w (by simp)]
  rfl

/-- With no limit and zero offset, decompression decodes every unit and builds
the map from plain pass-throughs followed by the decoded units. -/
theorem decompress_none_zero (T : List SnapshotDataTaggedWithWindowId) :
    decompress_chunked_snapshot_data T none 0 =
      ⟨false, buildMap (plainContribs T ++ (collectUnits T).flatMap decodeUnit)⟩ := by
  unfold decompress_chunked_snapshot_data
  by_cases hT : T.isEmpty
  · rw [if_pos hT]
    cases T with
    | nil => simp [plainContribs, collectUnits, buildMap]
    | cons t rest => simp [List.isEmpty] at hT
  · rw [if_neg hT]
    unfold paginate_list
    simp

/-- Tagging non-plain events passes nothing through as plain. -/
theorem tag_all_notPlain (l : List PostHogEvent)
    (h : ∀ e ∈ l, isPlainShape e = false) :
    (tagWithWindow l).all notPlainTagged = true := by
  rw [List.all_eq_true]
  intro t ht
  obtain ⟨e, he, hsd, _⟩ := tagWithWindow_mem l t ht
  have h2 := h e he
  unfold notPlainTagged
  cases hts : t.snapshot_data with
  | plain p =>
    rw [hts] at hsd
    unfold isPlainShape at h2
    rw [hsd] at h2
    simp at h2
  | compressed c => rfl
  | chunk ch => rfl

/-- Each group of groupByKey is the filter of the input at the group's key. -/
theorem groupByKey_groups_filter :
    ∀ l, ∀ p ∈ groupByKey l,
      p.2 = l.filter (fun x => decide (eventKey x = p.1)) := by
  intro l
  induction l using groupByKey.induct with
  | case1 => intro p hp; simp [groupByKey] at hp
  | case2 e rest ih =>
    intro p hp
    simp only [groupByKey] at hp
    rcases List.mem_cons.mp hp with rfl | hp
    · simp only
      rw [List.filter_cons_of_pos (by simp)]
    · have hpk : p.1 ≠ eventKey e := by
        intro hk
        have hkeys : p.1 ∈ (groupByKey (rest.filter
            (fun x => !decide (eventKey x = eventKey e)))).map Prod.fst :=
          List.mem_map_of_mem Prod.fst hp
        obtain ⟨x, hx, hxk⟩ := groupByKey_keys_mem _ _ hkeys
        have hx2 := List.mem_filter.mp hx
        rw [hxk] at hx2
        rw [hk] at hx2
        simp at hx2
      rw [ih p hp]
      rw [List.filter_cons_of_neg (by simp; intro hk; exact hpk hk.symm)]
      rw [List.filter_filter]
      apply List.filter_congr
      intro x hx
      by_cases hk : eventKey x = p.1
      · simp [hk]
        exact hpk
      · simp [hk]

/-- Every input event's key appears among the group keys. -/
theorem groupByKey_keys_complete :
    ∀ l, ∀ e ∈ l, eventKey e ∈ (groupByKey l).map Prod.fst := by
  intro l
  induction l using groupByKey.induct with
  | case1 => intro e he; exact absurd he (by simp)
  | case2 e rest ih =>
    intro x hx
    simp only [groupByKey, List.map_cons]
    rcases List.mem_cons.mp hx with rfl | hx
    · exact List.mem_cons_self _ _
    · by_cases hk : eventKey x = eventKey e
      · rw [hk]; exact List.mem_cons_self _ _
      · refine List.mem_cons_of_mem _ (ih x ?_)
        rw [List.mem_filter]
        exact ⟨hx, by simp [hk]⟩

/-- Group reduction preserves the concatenated data items. -/
theorem reduceGroup_items (maxSize : Nat) (l : List PostHogEvent) :
    (reduceGroup maxSize l).flatMap eventItems = l.flatMap eventItems := by
  cases l with
  | nil => rfl
  | cons e rest =>
    unfold reduceGroup
    rw [reduceAux_items]
    rfl

/-- Concatenation of concatenations reassociates. -/
theorem flatMap_flatMap {α β γ : Type} (f : α → List β) (g : β → List γ) :
    ∀ l : List α, (l.flatMap f).flatMap g = l.flatMap (fun x => (f x).flatMap g) := by
  intro l
  induction l with
  | nil => rfl
  | cons x rest ih =>
    rw [List.flatMap_cons, List.flatMap_cons, List.flatMap_append, ih]

/-- A guarded concatenation is the concatenation over the guard's filter. -/
theorem flatMap_ite_filter {α β : Type} (P : α → Prop) [DecidablePred P]
    (f : α → List β) :
    ∀ l : List α,
      l.flatMap (fun x => if P x then f x else []) =
        (l.filter (fun x => decide (P x))).flatMap f := by
  intro l
  induction l with
  | nil => rfl
  | cons x rest ih =>
    rw [List.flatMap_cons]
    by_cases hx : P x
    · rw [if_pos hx, List.filter_cons_of_pos (by simp [hx]), List.flatMap_cons, ih]
    · rw [if_neg hx, List.filter_cons_of_neg (by simp [hx]), ih]
      rfl

/-- Filtering a distinct key list at a present key selects exactly one
element. -/
theorem filter_key_singleton {α K : Type} [DecidableEq K] (key : α → K) :
    ∀ (l : List α) (k : K), (l.map key).Nodup → k ∈ l.map key →
      ∃ a, l.filter (fun x => decide (key x = k)) = [a] ∧ key a = k ∧ a ∈ l := by
  intro l
  induction l with
  | nil => intro k _ hk; exact absurd hk (by simp)
  | cons x rest ih =>
    intro k hnd hk
    rw [List.map_cons, List.nodup_cons] at hnd
    rcases List.mem_cons.mp hk with hkx | hkrest
    · refine ⟨x, ?_, hkx.symm, List.mem_cons_self _ _⟩
      rw [List.filter_cons_of_pos (by simp [hkx.symm])]
      rw [List.filter_eq_nil_iff.mpr]
      intro a ha
      simp only [decide_eq_true_eq]
      intro hak
      have hax : key a = key x := by rw [hak, hkx]
      exact hnd.1 (hax ▸ List.mem_map_of_mem key ha)
    · have hxk : ¬(key x = k) := by
        intro h
        exact hnd.1 (h ▸ hkrest)
      obtain ⟨a, ha1, ha2, ha3⟩ := ih k hnd.2 hkrest
      refine ⟨a, ?_, ha2, List.mem_cons_of_mem _ ha3⟩
      rw [List.filter_cons_of_neg (by simp [hxk]), ha1]

/-- Filtering distributes into a concatenation of blocks. -/
theorem filter_flatMap_dist {α β : Type} (f : α → List β) (p : β → Bool) :
    ∀ l : List α, (l.flatMap f).filter p = l.flatMap (fun x => (f x).filter p) := by
  intro l
  induction l with
  | nil => rfl
  | cons x rest ih =>
    rw [List.flatMap_cons, List.flatMap_cons, List.filter_append, ih]

/-- Reducing a key-uniform group keeps every output on the group's key. -/
theorem reduceGroup_key (maxSize : Nat) (k : Option String × Option String)
    (g : List PostHogEvent) (hg : ∀ x ∈ g, eventKey x = k) :
    ∀ y ∈ reduceGroup maxSize g, eventKey y = k := by
  refine reduceGroup_all maxSize (fun y => eventKey y = k) ?_ g hg
  intro a e hpa _
  rw [(mergeEvents_fields a e).2]
  exact hpa

/-- A raw snapshot event carries a plain payload. -/
theorem raw_isPlain (e : PostHogEvent) (h : isRawSnapshotEvent e = true) :
    isPlainShape e = true := by
  unfold isRawSnapshotEvent at h
  rw [Bool.and_eq_true] at h
  exact h.2

/-- Compressing a plain event yields a compressed event. -/
theorem compressEvent_compressed (e : PostHogEvent) (h : isPlainShape e = true) :
    isCompressedShape (compressEvent e) = true := by
  unfold isPlainShape at h
  cases hsd : e.snapshot_data with
  | none => rw [hsd] at h; exact absurd h (by simp)
  | some sd =>
    cases sd with
    | compressed c => rw [hsd] at h; exact absurd h (by simp)
    | chunk ch => rw [hsd] at h; exact absurd h (by simp)
    | plain p =>
      unfold compressEvent
      rw [hsd]
      rfl

/-- Compressing a plain payload produces exactly one data item, its blob. -/
theorem compressEvent_items_plain (e : PostHogEvent) (p : PlainSnapshot)
    (h : e.snapshot_data = some (.plain p)) :
    eventItems (compressEvent e) = [CompressedItem.blob p] := by
  unfold compressEvent
  rw [h]
  rfl

/-- The raw payload of a plain event is that payload. -/
theorem rawPayload_plain (e : PostHogEvent) (p : PlainSnapshot)
    (h : e.snapshot_data = some (.plain p)) :
    rawPayload e = some (.plain p) := by
  unfold rawPayload
  rw [h]

/-- Compress-then-decompress over a list of plain events recovers exactly the
original payload sequence. -/
theorem roundtrip_plain_list :
    ∀ l : List PostHogEvent, (∀ e ∈ l, isPlainShape e = true) →
      ((l.flatMap (fun e => eventItems (compressEvent e))).map decompressItem) =
        l.filterMap rawPayload := by
  intro l
  induction l with
  | nil => intro _; rfl
  | cons e rest ih =>
    intro h
    have hp := h e (List.mem_cons_self _ _)
    unfold isPlainShape at hp
    cases hsd : e.snapshot_data with
    | none => rw [hsd] at hp; exact absurd hp (by simp)
    | some sd =>
      cases sd with
      | compressed c => rw [hsd] at hp; exact absurd hp (by simp)
      | chunk ch => rw [hsd] at hp; exact absurd hp (by simp)
      | plain p =>
        rw [List.flatMap_cons, compressEvent_items_plain e p hsd]
        rw [List.filterMap_cons, rawPayload_plain e p hsd]
        rw [List.map_append]
        rw [ih (fun x hx => h x (List.mem_cons_of_mem _ hx))]
        rfl

/-- The collision-freedom check says: events sharing a window share the
session. -/
theorem noWindowCollisions_spec (evs : List PostHogEvent)
    (h : noWindowCollisions evs = true) :
    ∀ a ∈ evs, ∀ b ∈ evs, a.window_id = b.window_id → a.session_id = b.session_id := by
  unfold noWindowCollisions at h
  rw [List.all_eq_true] at h
  intro a ha b hb hw
  have h2 := h a ha
  rw [List.all_eq_true] at h2
  have h3 := h2 b hb
  rcases Bool.or_eq_true_iff.mp h3 with h4 | h4
  · rw [Bool.not_eq_eq_eq_not, Bool.not_true, decide_eq_false_iff_not] at h4
    exact absurd hw h4
  · exact of_decide_eq_true h4

/-- Items of compressed copies, block by block. -/
theorem flatMap_items_map_compress :
    ∀ X : List PostHogEvent,
      (X.map compressEvent).flatMap eventItems =
        X.flatMap (fun e => eventItems (compressEvent e)) := by
  intro X
  induction X with
  | nil => rfl
  | cons a r ih =>
    rw [List.map_cons, List.flatMap_cons, List.flatMap_cons, ih]

/-- C1: for every ordered batch of raw $snapshot events with no
(session_id, window_id) grouping collisions and any max_size_bytes at least
the size of the largest single compressed item, decompressing the
compressed+reduced+chunked pipeline output yields, for every window, exactly
the original pre-compression payload sequence of that window in its original
order. -/
theorem c1_roundtrip (maxSize : Nat) (evs : List PostHogEvent) (w : Option String)
    (hraw : ∀ e ∈ evs, isRawSnapshotEvent e = true)
    (hnc : noWindowCollisions evs = true)
    (hfit : ∀ e ∈ evs, rawItemFits maxSize e = true) :
    windowData (decompress_chunked_snapshot_data
        (tagWithWindow (flowReplay maxSize evs)) none 0).snapshot_data_by_window_id w =
      (evs.filter (fun e => decide (e.window_id = w))).filterMap rawPayload := by
  have hplain : ∀ e ∈ evs, isPlainShape e = true := fun e he => raw_isPlain e (hraw e he)
  have hncs := noWindowCollisions_spec evs hnc
  have hMc : ∀ y ∈ reduce_replay_events_by_window (compress_replay_events evs) maxSize,
      isCompressedShape y = true := by
    intro y hy
    unfold reduce_replay_events_by_window at hy
    obtain ⟨g, hg, hyg⟩ := List.mem_flatMap.mp hy
    refine reduceGroup_all maxSize (fun x => isCompressedShape x = true)
      (fun a e hpa hpe => merge_compressed a e hpa hpe) g.2 ?_ y hyg
    intro x hx
    have hxC := (groupByKey_sound _ g hg).2.2 x hx
    obtain ⟨x0, hx0, rfl⟩ := List.mem_map.mp hxC
    exact compressEvent_compressed x0 (hplain x0 hx0)
  have h1 : windowData (decompress_chunked_snapshot_data
      (tagWithWindow (flowReplay maxSize evs)) none 0).snapshot_data_by_window_id w =
      ((reduce_replay_events_by_window (compress_replay_events evs) maxSize).filter
          (fun e => decide (e.window_id = w))).flatMap
        (fun e => (eventItems e).map decompressItem) := by
    rw [decompress_none_zero]
    show windowData (buildMap (plainContribs (tagWithWindow (flowReplay maxSize evs)) ++
        (collectUnits (tagWithWindow (flowReplay maxSize evs))).flatMap decodeUnit)) w = _
    rw [plainContribs_nil_of_notPlain _
      (tag_all_notPlain _ (flowReplay_not_plain maxSize evs))]
    rw [List.nil_append]
    rw [show flowReplay maxSize evs = chunkAll maxSize 0
        (reduce_replay_events_by_window (compress_replay_events evs) maxSize) from rfl]
    rw [decode_chunkAll maxSize _ 0 hMc]
    rw [windowData_buildMap]
    rw [List.filter_map, List.flatMap_map]
    rfl
  by_cases hex : ∃ e₀, e₀ ∈ evs ∧ e₀.window_id = w
  · obtain ⟨e₀, he₀, hw₀⟩ := hex
    have hqcongr : ∀ e ∈ evs,
        decide (e.window_id = w) = decide (eventKey e = eventKey e₀) := by
      intro e he
      by_cases hew : e.window_id = w
      · have hsess : e.session_id = e₀.session_id :=
          hncs e he e₀ he₀ (by rw [hew, hw₀])
        have hkey : eventKey e = eventKey e₀ := by
          unfold eventKey
          rw [hsess, hew, hw₀]
        simp [hew, hkey]
      · have hkey : ¬(eventKey e = eventKey e₀) := by
          intro hk
          apply hew
          have h2 : e.window_id = e₀.window_id := congrArg Prod.snd hk
          rw [h2, hw₀]
        simp [hew, hkey]
    have hCmem : compressEvent e₀ ∈ compress_replay_events evs :=
      List.mem_map_of_mem compressEvent he₀
    have hk₀keys : eventKey e₀ ∈
        (groupByKey (compress_replay_events evs)).map Prod.fst := by
      have h2 := groupByKey_keys_complete _ (compressEvent e₀) hCmem
      rw [(compressEvent_fields e₀).2] at h2
      exact h2
    obtain ⟨p₀, hp₀eq, hp₀k, hp₀mem⟩ :=
      filter_key_singleton Prod.fst (groupByKey (compress_replay_events evs))
        (eventKey e₀) (groupByKey_keys_nodup _) hk₀keys
    have hgfilter : ∀ g ∈ groupByKey (compress_replay_events evs),
        (reduceGroup maxSize g.2).filter (fun e => decide (e.window_id = w)) =
          if g.1 = eventKey e₀ then reduceGroup maxSize g.2 else [] := by
      intro g hg
      have hkeyuni : ∀ y ∈ reduceGroup maxSize g.2, eventKey y = g.1 :=
        reduceGroup_key maxSize g.1 g.2 ((groupByKey_sound _ g hg).2.1)
      by_cases hgk : g.1 = eventKey e₀
      · rw [if_pos hgk]
        apply List.filter_eq_self.mpr
        intro y hy
        simp only [decide_eq_true_eq]
        have h2 : y.window_id = g.1.2 := by
          rw [show y.window_id = (eventKey y).2 from rfl, hkeyuni y hy]
        rw [h2, hgk]
        show (eventKey e₀).2 = w
        rw [show (eventKey e₀).2 = e₀.window_id from rfl, hw₀]
      · rw [if_neg hgk]
        apply List.filter_eq_nil_iff.mpr
        intro y hy
        simp only [decide_eq_true_eq]
        intro hyw
        have hk1 : g.1 ∈ (groupByKey (compress_replay_events evs)).map Prod.fst :=
          List.mem_map_of_mem Prod.fst hg
        obtain ⟨x, hx, hxk⟩ := groupByKey_keys_mem _ _ hk1
        obtain ⟨x0, hx0, rfl⟩ := List.mem_map.mp hx
        have hx0k : eventKey x0 = g.1 := by
          rw [← (compressEvent_fields x0).2, hxk]
        have hx0w : x0.window_id = w := by
          have h2 : y.window_id = g.1.2 := by
            rw [show y.window_id = (eventKey y).2 from rfl, hkeyuni y hy]
          have h3 : x0.window_id = g.1.2 := by
            rw [show x0.window_id = (eventKey x0).2 from rfl, hx0k]
          rw [h3, ← h2, hyw]
        have hsess : x0.session_id = e₀.session_id :=
          hncs x0 hx0 e₀ he₀ (by rw [hx0w, hw₀])
        apply hgk
        rw [← hx0k]
        unfold eventKey
        rw [hsess, hx0w, hw₀]
    have hMfilter : (reduce_replay_events_by_window
        (compress_replay_events evs) maxSize).filter
          (fun e => decide (e.window_id = w)) = reduceGroup maxSize p₀.2 := by
      rw [show reduce_replay_events_by_window (compress_replay_events evs) maxSize =
          (groupByKey (compress_replay_events evs)).flatMap
            (fun g => reduceGroup maxSize g.2) from rfl]
      rw [filter_flatMap_dist]
      rw [flatMap_congr2 _ _ _ hgfilter]
      rw [flatMap_ite_filter]
      rw [hp₀eq]
      simp
    have hCfilter : (evs.map compressEvent).filter
        (fun x => decide (eventKey x = eventKey e₀)) =
        (evs.filter (fun e => decide (eventKey e = eventKey e₀))).map compressEvent := by
      rw [List.filter_map]
      exact congrArg (List.map compressEvent)
        (List.filter_congr (fun e he => by
          show decide (eventKey (compressEvent e) = eventKey e₀) = _
          rw [(compressEvent_fields e).2]))
    rw [h1, hMfilter]
    rw [flatMap_map_out eventItems decompressItem]
    rw [reduceGroup_items]
    rw [groupByKey_groups_filter _ p₀ hp₀mem, hp₀k]
    rw [show compress_replay_events evs = evs.map compressEvent from rfl]
    rw [hCfilter]
    rw [flatMap_items_map_compress]
    rw [roundtrip_plain_list _ (fun e he => hplain e (List.mem_of_mem_filter he))]
    rw [List.filter_congr hqcongr]
  · have hnone : ∀ e ∈ evs, ¬(e.window_id = w) := by
      intro e he hew
      exact hex ⟨e, he, hew⟩
    have hrhs : evs.filter (fun e => decide (e.window_id = w)) = [] :=
      List.filter_eq_nil_iff.mpr (fun e he => by simpa using hnone e he)
    have hlhsM : (reduce_replay_events_by_window
        (compress_replay_events evs) maxSize).filter
          (fun e => decide (e.window_id = w)) = [] := by
      apply List.filter_eq_nil_iff.mpr
      intro y hy
      simp only [decide_eq_true_eq]
      intro hyw
      unfold reduce_replay_events_by_window at hy
      obtain ⟨g, hg, hyg⟩ := List.mem_flatMap.mp hy
      have hkey : eventKey y = g.1 :=
        reduceGroup_key maxSize g.1 g.2 ((groupByKey_sound _ g hg).2.1) y hyg
      have hk1 : g.1 ∈ (groupByKey (compress_replay_events evs)).map Prod.fst :=
        List.mem_map_of_mem Prod.fst hg
      obtain ⟨x, hx, hxk⟩ := groupByKey_keys_mem _ _ hk1
      obtain ⟨x0, hx0, rfl⟩ := List.mem_map.mp hx
      have hx0k : eventKey x0 = g.1 := by
        rw [← (compressEvent_fields x0).2, hxk]
      have hx0w : x0.window_id = w := by
        have h2 : y.window_id = g.1.2 := by
          rw [show y.window_id = (eventKey y).2 from rfl, hkey]
        have h3 : x0.window_id = g.1.2 := by
          rw [show x0.window_id = (eventKey x0).2 from rfl, hx0k]
        rw [h3, ← h2, hyw]
      exact hnone x0 hx0 hx0w
    rw [h1, hlhsM, hrhs]
    rfl

/-- C1 witness: the round-trip theorem applied to a concrete two-event batch
over two windows of one session, at window "A". -/
theorem c1_witness :
    (∀ e ∈ c1In, isRawSnapshotEvent e = true) ∧
    noWindowCollisions c1In = true ∧
    (∀ e ∈ c1In, rawItemFits 1000 e = true) ∧
    windowData (decompress_chunked_snapshot_data
        (tagWithWindow (flowReplay 1000 c1In)) none 0).snapshot_data_by_window_id
        (some "A") =
      (c1In.filter (fun e => decide (e.window_id = some "A"))).filterMap rawPayload :=
  ⟨by decide, by decide, by decide,
    c1_roundtrip 1000 c1In (some "A") (by decide) (by decide) (by decide)⟩

end Theorems

end SessionRecording
